import Mathlib

/-!
Verification development for a visual-novel script translator.

The repository has two generations of code:
* a legacy Node pipeline (`translator.js`, `server.js`): regex-based quote
  extraction, tag protection via `__TAG_i__` placeholders, a joined-text
  Google path, and a global find/replace merger (`mergeBack`);
* a browser app (`src/lib/*.ts`, `src/ui/state.ts`): provider adapters
  (DeepSeek / DeepL / Lingva), a retry combinator, a translation-memory
  store and a batch orchestrator.

Everything below is a shallow embedding of that code.  Strings are
modelled as `List Char` (`Str`).  JavaScript's `String.prototype.replace`
with a global literal regex is modelled faithfully, including the `$&`,
`$$`, backtick and quote replacement-template escapes, because
`mergeBack` and `restoreTags` feed arbitrary text into the replacement
template.  Functions whose JS originals recurse by an unbounded amount
per step (scanners, JSON parsing, network loops) take an explicit fuel
argument so that every definition evaluates by `decide`/`rfl`; the
public wrappers instantiate the fuel with a provably sufficient bound.
-/

set_option autoImplicit false
set_option maxRecDepth 10000

namespace VNT

/-- Strings as lists of characters, the form all models below work on. -/
abbrev Str := List Char

/-- The backtick character, used by the `$`-backtick replacement escape. -/
def btickC : Char := Char.ofNat 96

/-- The apostrophe character, used by the `$`-apostrophe replacement escape. -/
def aposC : Char := Char.ofNat 39

/-- Boolean test that `pat` is a prefix of the second argument. -/
def leadsWith : Str → Str → Bool
  | [], _ => true
  | _ :: _, [] => false
  | p :: ps, c :: cs => p == c && leadsWith ps cs

/-- Boolean test that `pat` occurs as a contiguous substring. -/
def occursIn (pat : Str) : Str → Bool
  | [] => leadsWith pat []
  | c :: cs => leadsWith pat (c :: cs) || occursIn pat cs

theorem leadsWith_iff (pat t : Str) : leadsWith pat t = true ↔ ∃ r, t = pat ++ r := by
  induction pat generalizing t with
  | nil => simp [leadsWith]
  | cons p ps ih =>
    cases t with
    | nil => simp [leadsWith]
    | cons c cs =>
      simp only [leadsWith, Bool.and_eq_true, beq_iff_eq]
      constructor
      · rintro ⟨rfl, h⟩
        obtain ⟨r, rfl⟩ := (ih cs).mp h
        exact ⟨r, rfl⟩
      · rintro ⟨r, h⟩
        cases h
        exact ⟨rfl, (ih (ps ++ r)).mpr ⟨r, rfl⟩⟩

theorem leadsWith_self (pat r : Str) : leadsWith pat (pat ++ r) = true :=
  (leadsWith_iff pat (pat ++ r)).mpr ⟨r, rfl⟩

theorem leadsWith_nil_right (pat : Str) : leadsWith pat [] = true ↔ pat = [] := by
  cases pat <;> simp [leadsWith]

theorem occursIn_of_leadsWith {pat t : Str} (h : leadsWith pat t = true) :
    occursIn pat t = true := by
  cases t with
  | nil => simpa [occursIn] using h
  | cons c cs => simp [occursIn, h]

/-- Expansion of a JavaScript replacement template at one match site:
`$$` yields a dollar, `$&` the matched text, dollar-backtick the part of
the subject before the match, dollar-apostrophe the part after it; any
other `$`-sequence is literal (the regexes in this repository have no
capture groups). -/
def expandRepl (before matched after : Str) : Str → Str
  | [] => []
  | c :: r =>
    if c = '$' then
      match r with
      | [] => ['$']
      | d :: r' =>
        if d = '$' then '$' :: expandRepl before matched after r'
        else if d = '&' then matched ++ expandRepl before matched after r'
        else if d = btickC then before ++ expandRepl before matched after r'
        else if d = aposC then after ++ expandRepl before matched after r'
        else '$' :: d :: expandRepl before matched after r'
    else c :: expandRepl before matched after r

theorem expandRepl_const {tmpl : Str} (h : ∀ c ∈ tmpl, c ≠ '$')
    (before matched after : Str) : expandRepl before matched after tmpl = tmpl := by
  induction tmpl with
  | nil => rfl
  | cons c r ih =>
    have hc : c ≠ '$' := h c (List.mem_cons_self c r)
    have hr : ∀ x ∈ r, x ≠ '$' := fun x hx => h x (List.mem_cons_of_mem c hx)
    rw [expandRepl.eq_def]
    simp [hc, ih hr]

/-- Core of JavaScript `String.replace` with a global literal pattern:
scan left to right, at each position try the pattern, on a match emit the
expanded template and resume after the matched span (non-overlapping).
`skip` counts remaining characters of a just-matched span; `before`
accumulates, reversed, the subject characters already passed (the
dollar-backtick escape reads it). -/
def replAux (pat tmpl : Str) : Nat → Str → Str → Str
  | _, _, [] => []
  | Nat.succ k, before, c :: rest => replAux pat tmpl k (c :: before) rest
  | 0, before, c :: rest =>
    if leadsWith pat (c :: rest) then
      expandRepl before.reverse pat ((c :: rest).drop pat.length) tmpl
        ++ replAux pat tmpl (pat.length - 1) (c :: before) rest
    else c :: replAux pat tmpl 0 (c :: before) rest

/-- JavaScript `subject.replace(new RegExp(escaped, "g"), tmpl)` where the
regex is a regex-escaped literal, as built by `mergeBack` and
`restoreTags`.  The empty pattern never arises in the translated code. -/
def replaceAllJS (pat tmpl t : Str) : Str :=
  if pat = [] then t else replAux pat tmpl 0 [] t

theorem replAux_skip (pat tmpl : Str) :
    ∀ (t : Str) (k : Nat) (before : Str),
      replAux pat tmpl k before t
        = replAux pat tmpl 0 ((t.take k).reverse ++ before) (t.drop k) := by
  intro t
  induction t with
  | nil => intro k before; cases k <;> rfl
  | cons c rest ih =>
    intro k before
    cases k with
    | zero => simp
    | succ k =>
      show replAux pat tmpl k (c :: before) rest = _
      rw [ih k (c :: before)]
      simp [List.append_assoc]

theorem replAux_before_irrel {tmpl : Str} (ht : ∀ c ∈ tmpl, c ≠ '$') (pat : Str) :
    ∀ (t : Str) (k : Nat) (b₁ b₂ : Str),
      replAux pat tmpl k b₁ t = replAux pat tmpl k b₂ t := by
  intro t
  induction t with
  | nil => intro k b₁ b₂; cases k <;> rfl
  | cons c rest ih =>
    intro k b₁ b₂
    cases k with
    | succ k => exact ih k (c :: b₁) (c :: b₂)
    | zero =>
      simp only [replAux]
      by_cases hm : leadsWith pat (c :: rest) = true
      · rw [if_pos hm, if_pos hm, expandRepl_const ht, expandRepl_const ht,
          ih (pat.length - 1) (c :: b₁) (c :: b₂)]
      · rw [if_neg hm, if_neg hm, ih 0 (c :: b₁) (c :: b₂)]

theorem replAux_no_occ {pat : Str} (tmpl : Str) :
    ∀ (t : Str), occursIn pat t = false → ∀ b, replAux pat tmpl 0 b t = t := by
  intro t
  induction t with
  | nil => intro _ b; rfl
  | cons c rest ih =>
    intro h b
    rw [occursIn, Bool.or_eq_false_iff] at h
    simp only [replAux]
    rw [if_neg (by simp [h.1]), ih h.2 (c :: b)]

theorem replaceAllJS_no_occ {pat : Str} (tmpl : Str) {t : Str}
    (h : occursIn pat t = false) : replaceAllJS pat tmpl t = t := by
  unfold replaceAllJS
  split
  · rfl
  · exact replAux_no_occ tmpl t h []

theorem replAux_self {pat : Str} (hne : pat ≠ []) (hd : ∀ c ∈ pat, c ≠ '$') :
    ∀ (n : Nat) (t : Str), t.length ≤ n → ∀ b, replAux pat pat 0 b t = t := by
  intro n
  induction n with
  | zero =>
    intro t ht b
    have : t = [] := List.eq_nil_of_length_eq_zero (Nat.le_zero.mp ht)
    subst this; rfl
  | succ n ih =>
    intro t ht b
    cases t with
    | nil => rfl
    | cons c rest =>
      simp only [replAux]
      by_cases hm : leadsWith pat (c :: rest) = true
      · obtain ⟨tail, htail⟩ := (leadsWith_iff pat (c :: rest)).mp hm
        rw [if_pos hm, expandRepl_const hd]
        obtain ⟨p, ps, rfl⟩ : ∃ p ps, pat = p :: ps := by
          cases pat with
          | nil => exact absurd rfl hne
          | cons p ps => exact ⟨p, ps, rfl⟩
        have hc : c = p := by simpa using congrArg (List.head? ·) htail
        have hrest : rest = ps ++ tail := by simpa using congrArg (List.tail ·) htail
        have hlen : (p :: ps).length - 1 = ps.length := by simp
        rw [hlen, replAux_skip, hrest, List.take_left, List.drop_left]
        have htt : tail.length ≤ n := by
          have h1 := congrArg List.length htail
          have h2 : (c :: rest).length ≤ n + 1 := ht
          simp [List.length_append] at h1 h2
          omega
        rw [ih tail htt _, hc]
        simp
      · rw [if_neg hm]
        have : rest.length ≤ n := by simp at ht; omega
        rw [ih rest this (c :: b)]

theorem replAux_chunk {p : Char} (ps : Str) (tmpl : Str) :
    ∀ (A : Str), (∀ ch ∈ A, ch ≠ p) → ∀ (X b : Str),
      replAux (p :: ps) tmpl 0 b (A ++ X)
        = A ++ replAux (p :: ps) tmpl 0 (A.reverse ++ b) X := by
  intro A
  induction A with
  | nil => intro _ X b; simp
  | cons a A' ih =>
    intro hA X b
    have ha : a ≠ p := hA a (List.mem_cons_self a A')
    have hpa : (p == a) = false := beq_eq_false_iff_ne.mpr (Ne.symm ha)
    have hlw : leadsWith (p :: ps) (a :: (A' ++ X)) = false := by
      rw [leadsWith, hpa, Bool.false_and]
    simp only [List.cons_append, replAux, List.append_eq]
    rw [if_neg (by simp [hlw]), ih (fun ch hch => hA ch (List.mem_cons_of_mem a hch)) X (a :: b)]
    simp [List.append_assoc]

theorem occursIn_chunk {p : Char} (ps : Str) :
    ∀ (A : Str), (∀ ch ∈ A, ch ≠ p) → ∀ X,
      occursIn (p :: ps) (A ++ X) = occursIn (p :: ps) X := by
  intro A
  induction A with
  | nil => intro _ X; rfl
  | cons a A' ih =>
    intro hA X
    have ha : a ≠ p := hA a (List.mem_cons_self a A')
    have hpa : (p == a) = false := beq_eq_false_iff_ne.mpr (Ne.symm ha)
    have hlw : leadsWith (p :: ps) (a :: (A' ++ X)) = false := by
      rw [leadsWith, hpa, Bool.false_and]
    simp only [List.cons_append, occursIn, List.append_eq, hlw, Bool.false_or]
    exact ih (fun ch hch => hA ch (List.mem_cons_of_mem a hch)) X

theorem occursIn_sandwich (pat a b : Str) : occursIn pat (a ++ (pat ++ b)) = true := by
  induction a with
  | nil => rw [List.nil_append]; exact occursIn_of_leadsWith (leadsWith_self pat b)
  | cons c a' ih => rw [List.cons_append, occursIn, ih, Bool.or_true]

/-! ### Decimal numerals and placeholder tokens

The legacy masker builds the placeholder for match number `i` by string
interpolation of the JavaScript number `i`, i.e. its decimal numeral. -/

/-- Decimal digit character for a digit value (values ≥ 9 clamp to `9`;
they do not occur). -/
def digitChar : Nat → Char
  | 0 => '0' | 1 => '1' | 2 => '2' | 3 => '3' | 4 => '4'
  | 5 => '5' | 6 => '6' | 7 => '7' | 8 => '8' | _ => '9'

/-- Fuelled decimal numeral; the fuel dominates the digit count. -/
def decStrGo : Nat → Nat → Str
  | 0, _ => []
  | fuel + 1, n =>
    if n < 10 then [digitChar n] else decStrGo fuel (n / 10) ++ [digitChar (n % 10)]

/-- Decimal numeral of a natural number, as JavaScript prints it. -/
def decStr (n : Nat) : Str := decStrGo (n + 1) n

theorem decStrGo_stable : ∀ (f₁ : Nat), ∀ {n : Nat}, n < f₁ → ∀ {f₂ : Nat}, n < f₂ →
    decStrGo f₁ n = decStrGo f₂ n := by
  intro f₁
  induction f₁ with
  | zero => intro n h; omega
  | succ f ih =>
    intro n _ f₂ h₂
    cases f₂ with
    | zero => omega
    | succ f₂' =>
      simp only [decStrGo]
      by_cases h10 : n < 10
      · simp [h10]
      · rw [if_neg h10, if_neg h10]
        have hd : n / 10 < f := by omega
        have hd₂ : n / 10 < f₂' := by omega
        rw [ih hd hd₂]

theorem decStrGo_eq_decStr {f n : Nat} (h : n < f) : decStrGo f n = decStr n :=
  decStrGo_stable f h (Nat.lt_succ_self n)

theorem digitChar_isDigit (k : Nat) : (digitChar k).isDigit = true := by
  unfold digitChar
  split <;> decide

theorem decStr_digits : ∀ (n : Nat), ∀ c ∈ decStr n, c.isDigit = true := by
  have key : ∀ (f : Nat), ∀ {n : Nat}, n < f → ∀ c ∈ decStrGo f n, c.isDigit = true := by
    intro f
    induction f with
    | zero => intro n h; omega
    | succ f ih =>
      intro n _ c hc
      simp only [decStrGo] at hc
      by_cases h10 : n < 10
      · rw [if_pos h10] at hc
        simp at hc
        subst hc
        exact digitChar_isDigit n
      · rw [if_neg h10] at hc
        rcases List.mem_append.mp hc with h | h
        · exact ih (by omega) c h
        · simp at h
          subst h
          exact digitChar_isDigit (n % 10)
  intro n c hc
  exact key (n + 1) (Nat.lt_succ_self n) c hc

theorem decStr_ne_nil (n : Nat) : decStr n ≠ [] := by
  unfold decStr decStrGo
  by_cases h10 : n < 10
  · simp [h10]
  · simp [h10]

theorem isDigit_ne (c : Char) (h : c.isDigit = true) :
    c ≠ '_' ∧ c ≠ 'T' ∧ c ≠ '%' ∧ c ≠ '$' ∧ c ≠ '[' ∧ c ≠ '{' ∧ c ≠ ']' ∧
    c ≠ '}' ∧ c ≠ '(' ∧ c ≠ ')' ∧ c ≠ 's' ∧ c ≠ '"' := by
  refine ⟨?_, ?_, ?_, ?_, ?_, ?_, ?_, ?_, ?_, ?_, ?_, ?_⟩ <;>
    (rintro rfl; simp [Char.isDigit] at h)

/-- Value of a decimal numeral, used to invert `decStr`. -/
def decVal (l : Str) : Nat := l.foldl (fun a c => 10 * a + (c.toNat - 48)) 0

theorem decVal_go (l : Str) : ∀ (a : Nat),
    l.foldl (fun a c => 10 * a + (c.toNat - 48)) a
      = a * 10 ^ l.length + decVal l := by
  induction l with
  | nil => intro a; simp [decVal]
  | cons c r ih =>
    intro a
    show List.foldl _ (10 * a + (c.toNat - 48)) r = _
    rw [ih (10 * a + (c.toNat - 48))]
    have : decVal (c :: r) = (10 * 0 + (c.toNat - 48)) * 10 ^ r.length + decVal r := by
      show List.foldl _ (10 * 0 + (c.toNat - 48)) r = _
      rw [ih (10 * 0 + (c.toNat - 48))]
    rw [this]
    simp [List.length_cons, pow_succ]
    ring

theorem decVal_append_last (a : Str) (c : Char) :
    decVal (a ++ [c]) = 10 * decVal a + (c.toNat - 48) := by
  unfold decVal
  rw [List.foldl_append]
  rfl

theorem digitChar_toNat {k : Nat} (h : k < 10) : (digitChar k).toNat = 48 + k := by
  interval_cases k <;> decide

theorem decVal_decStr (n : Nat) : decVal (decStr n) = n := by
  have key : ∀ (f : Nat), ∀ {n : Nat}, n < f → decVal (decStrGo f n) = n := by
    intro f
    induction f with
    | zero => intro n h; omega
    | succ f ih =>
      intro n _
      simp only [decStrGo]
      by_cases h10 : n < 10
      · rw [if_pos h10]
        show decVal [digitChar n] = n
        unfold decVal
        simp [digitChar_toNat h10]
      · rw [if_neg h10]
        rw [decVal_append_last, ih (by omega), digitChar_toNat (Nat.mod_lt n (by omega))]
        omega
  exact key (n + 1) (Nat.lt_succ_self n)

theorem decStr_inj {n m : Nat} (h : decStr n = decStr m) : n = m := by
  have := congrArg decVal h
  rwa [decVal_decStr, decVal_decStr] at this

/-- The placeholder the legacy masker substitutes for match number `n`:
two underscores, `TAG`, an underscore, the decimal index, two underscores. -/
def tagToken (n : Nat) : Str :=
  '_' :: '_' :: 'T' :: 'A' :: 'G' :: '_' :: (decStr n ++ ['_', '_'])

theorem tagToken_ne_nil (n : Nat) : tagToken n ≠ [] := by simp [tagToken]

theorem tagToken_no_dollar (n : Nat) : ∀ c ∈ tagToken n, c ≠ '$' := by
  intro c hc
  simp only [tagToken, List.mem_cons, List.mem_append] at hc
  rcases hc with rfl | rfl | rfl | rfl | rfl | rfl | h | h
  · decide
  · decide
  · decide
  · decide
  · decide
  · decide
  · exact (isDigit_ne c (decStr_digits n c h)).2.2.2.1
  · rcases h with rfl | h
    · decide
    · simp at h; subst h; decide

/-! ### The legacy tag masker (`protectTags` / `restoreTags`)

`protectTags` scans for the three control-tag syntax classes of the regex
in `translator.js` — a bracketed reference, a brace-delimited tag, a
percent-parenthesis-`s` interpolation — replacing each match, left to
right and non-overlapping, by `__TAG_i__`. -/

/-- Split a string at the first occurrence of `close`: the characters
before it and the characters after it. -/
def spanTo (close : Char) : Str → Option (Str × Str)
  | [] => none
  | c :: r =>
    if c = close then some ([], r)
    else
      match spanTo close r with
      | some (run, r') => some (c :: run, r')
      | none => none

theorem spanTo_some {close : Char} : ∀ {rest run r' : Str},
    spanTo close rest = some (run, r') →
    rest = run ++ close :: r' ∧ ∀ c ∈ run, c ≠ close := by
  intro rest
  induction rest with
  | nil => intro run r' h; simp [spanTo] at h
  | cons c r ih =>
    intro run r' h
    simp only [spanTo] at h
    by_cases hc : c = close
    · rw [if_pos hc] at h
      injection h with h
      injection h with h1 h2
      subst h1; subst h2; subst hc
      exact ⟨rfl, by simp⟩
    · rw [if_neg hc] at h
      cases hs : spanTo close r with
      | none => rw [hs] at h; exact absurd h (by simp)
      | some p =>
        obtain ⟨run₀, r₀⟩ := p
        rw [hs] at h
        injection h with h
        injection h with h1 h2
        subst h2
        obtain ⟨he, hall⟩ := ih hs
        subst he
        constructor
        · rw [← h1]; rfl
        · intro x hx
          rw [← h1] at hx
          rcases List.mem_cons.mp hx with rfl | hx
          · exact hc
          · exact hall x hx

theorem spanTo_none {close : Char} : ∀ {rest : Str},
    spanTo close rest = none → ∀ c ∈ rest, c ≠ close := by
  intro rest
  induction rest with
  | nil => intro _ c hc; simp at hc
  | cons c r ih =>
    intro h x hx
    simp only [spanTo] at h
    by_cases hc : c = close
    · rw [if_pos hc] at h; exact absurd h (by simp)
    · rw [if_neg hc] at h
      cases hs : spanTo close r with
      | some p => rw [hs] at h; exact absurd h (by simp)
      | none =>
        rcases List.mem_cons.mp hx with rfl | hx
        · exact hc
        · exact ih hs x hx

/-- Body of the bracket alternatives of the masking regex: a nonempty run
of non-`close` characters followed by `close`. -/
def bracketSplit (close : Char) (rest : Str) : Option (Str × Str) :=
  match spanTo close rest with
  | some ([], _) => none
  | some (run, r') => some (run, r')
  | none => none

theorem bracketSplit_some {close : Char} {rest run r' : Str}
    (h : bracketSplit close rest = some (run, r')) :
    rest = run ++ close :: r' ∧ run ≠ [] ∧ ∀ c ∈ run, c ≠ close := by
  unfold bracketSplit at h
  cases hs : spanTo close rest with
  | none => rw [hs] at h; exact absurd h (by simp)
  | some p =>
    obtain ⟨run₀, r₀⟩ := p
    rw [hs] at h
    cases run₀ with
    | nil => exact absurd h (by simp)
    | cons a run₁ =>
      simp only at h
      injection h with h
      injection h with h1 h2
      subst h1; subst h2
      obtain ⟨he, hall⟩ := spanTo_some hs
      exact ⟨he, by simp, hall⟩

/-- Body of the percent alternative of the masking regex: an opening
parenthesis, a nonempty run of non-parenthesis characters, a closing
parenthesis, then the letter `s`. -/
def percentSplit (rest : Str) : Option (Str × Str) :=
  match rest with
  | '(' :: r2 =>
    match bracketSplit ')' r2 with
    | some (run, r3) =>
      match r3 with
      | 's' :: r4 => some (run, r4)
      | _ => none
    | none => none
  | _ => none

theorem percentSplit_some : ∀ {rest run r' : Str},
    percentSplit rest = some (run, r') →
    rest = '(' :: (run ++ ')' :: 's' :: r') ∧ run ≠ [] ∧ ∀ c ∈ run, c ≠ ')' := by
  intro rest run r' h
  unfold percentSplit at h
  cases rest with
  | nil => exact absurd h (by simp)
  | cons c r2 =>
    by_cases hc : c = '('
    · subst hc
      simp only at h
      cases hb : bracketSplit ')' r2 with
      | none => rw [hb] at h; exact absurd h (by simp)
      | some p =>
        obtain ⟨run₀, r₃⟩ := p
        rw [hb] at h
        cases r₃ with
        | nil => exact absurd h (by simp)
        | cons d r₄ =>
          by_cases hd : d = 's'
          · subst hd
            simp only at h
            injection h with h
            injection h with h1 h2
            subst h1; subst h2
            obtain ⟨he, hne, hall⟩ := bracketSplit_some hb
            subst he
            exact ⟨rfl, hne, hall⟩
          · rw [show (d :: r₄) = d :: r₄ from rfl] at h
            exact absurd h (by cases d <;> simp_all [percentSplit])
    · exact absurd h (by cases c <;> simp_all [percentSplit])

/-- The scanner of `protectTags` in `translator.js`: one global pass of
the regex alternation bracket / brace / percent, replacing each match by
`__TAG_i__` and recording `(placeholder, match)` pairs in order.  `cnt`
is the number of placeholders already recorded; `fuel` bounds the number
of steps (each step consumes at least one character). -/
def maskGo : Nat → Nat → Str → Str × List (Str × Str)
  | 0, _, t => (t, [])
  | _ + 1, _, [] => ([], [])
  | fuel + 1, cnt, x :: rest =>
    if x = '[' then
      match bracketSplit ']' rest with
      | some (run, r') =>
        (tagToken cnt ++ (maskGo fuel (cnt + 1) r').1,
          (tagToken cnt, '[' :: run ++ [']']) :: (maskGo fuel (cnt + 1) r').2)
      | none => (x :: (maskGo fuel cnt rest).1, (maskGo fuel cnt rest).2)
    else if x = '{' then
      match bracketSplit '}' rest with
      | some (run, r') =>
        (tagToken cnt ++ (maskGo fuel (cnt + 1) r').1,
          (tagToken cnt, '{' :: run ++ ['}']) :: (maskGo fuel (cnt + 1) r').2)
      | none => (x :: (maskGo fuel cnt rest).1, (maskGo fuel cnt rest).2)
    else if x = '%' then
      match percentSplit rest with
      | some (run, r') =>
        (tagToken cnt ++ (maskGo fuel (cnt + 1) r').1,
          (tagToken cnt, '%' :: '(' :: run ++ [')', 's']) :: (maskGo fuel (cnt + 1) r').2)
      | none => (x :: (maskGo fuel cnt rest).1, (maskGo fuel cnt rest).2)
    else (x :: (maskGo fuel cnt rest).1, (maskGo fuel cnt rest).2)

/-- `protectTags` of `translator.js`: returns the masked text and the
placeholder list. -/
def protectTags (t : Str) : Str × List (Str × Str) := maskGo t.length 0 t

/-- `restoreTags` of `translator.js`: sequentially replace each
placeholder, globally, by its recorded tag text (the tag text acts as a
JavaScript replacement template). -/
def restoreTags (translatedText : Str) (placeholders : List (Str × Str)) : Str :=
  placeholders.foldl (fun acc kv => replaceAllJS kv.1 kv.2 acc) translatedText

theorem maskGo_stable : ∀ (f₁ : Nat), ∀ {t : Str}, t.length ≤ f₁ →
    ∀ {f₂ : Nat}, t.length ≤ f₂ → ∀ (cnt : Nat), maskGo f₁ cnt t = maskGo f₂ cnt t := by
  intro f₁
  induction f₁ with
  | zero =>
    intro t h₁ f₂ h₂ cnt
    have : t = [] := List.eq_nil_of_length_eq_zero (Nat.le_zero.mp h₁)
    subst this
    cases f₂ <;> rfl
  | succ f ih =>
    intro t h₁ f₂ h₂ cnt
    cases t with
    | nil => cases f₂ <;> rfl
    | cons x rest =>
      cases f₂ with
      | zero => simp at h₂
      | succ f₂' =>
        have hrest : rest.length ≤ f := by simp at h₁; omega
        have hrest₂ : rest.length ≤ f₂' := by simp at h₂; omega
        simp only [maskGo]
        by_cases hx1 : x = '['
        · rw [if_pos hx1, if_pos hx1]
          cases hb : bracketSplit ']' rest with
          | some p =>
            obtain ⟨run, r'⟩ := p
            obtain ⟨he, -, -⟩ := bracketSplit_some hb
            have hr' : r'.length ≤ f := by
              have := congrArg List.length he
              simp [List.length_append] at this
              omega
            have hr'₂ : r'.length ≤ f₂' := by
              have := congrArg List.length he
              simp [List.length_append] at this
              omega
            simp only [ih hrest hrest₂, ih hr' hr'₂]
          | none => simp only [ih hrest hrest₂]
        · rw [if_neg hx1, if_neg hx1]
          by_cases hx2 : x = '{'
          · rw [if_pos hx2, if_pos hx2]
            cases hb : bracketSplit '}' rest with
            | some p =>
              obtain ⟨run, r'⟩ := p
              obtain ⟨he, -, -⟩ := bracketSplit_some hb
              have hr' : r'.length ≤ f := by
                have := congrArg List.length he
                simp [List.length_append] at this
                omega
              have hr'₂ : r'.length ≤ f₂' := by
                have := congrArg List.length he
                simp [List.length_append] at this
                omega
              simp only [ih hrest hrest₂, ih hr' hr'₂]
            | none => simp only [ih hrest hrest₂]
          · rw [if_neg hx2, if_neg hx2]
            by_cases hx3 : x = '%'
            · rw [if_pos hx3, if_pos hx3]
              cases hb : percentSplit rest with
              | some p =>
                obtain ⟨run, r'⟩ := p
                obtain ⟨he, -, -⟩ := percentSplit_some hb
                have hr' : r'.length ≤ f := by
                  have := congrArg List.length he
                  simp [List.length_append] at this
                  omega
                have hr'₂ : r'.length ≤ f₂' := by
                  have := congrArg List.length he
                  simp [List.length_append] at this
                  omega
                simp only [ih hrest hrest₂, ih hr' hr'₂]
              | none => simp only [ih hrest hrest₂]
            · rw [if_neg hx3, if_neg hx3]
              simp only [ih hrest hrest₂]

theorem leadsWith_append_same : ∀ (h x y : Str),
    leadsWith (h ++ x) (h ++ y) = leadsWith x y := by
  intro h
  induction h with
  | nil => intro x y; rfl
  | cons c h' ih =>
    intro x y
    simp only [List.cons_append, leadsWith, beq_self_eq_true, Bool.true_and]
    exact ih x y

theorem leadsWith_digits : ∀ (a : Str), (∀ c ∈ a, c ≠ '_') →
    ∀ (b : Str), (∀ c ∈ b, c ≠ '_') → ∀ (u v : Str),
      leadsWith (a ++ '_' :: u) (b ++ '_' :: v) = true → a = b := by
  intro a
  induction a with
  | nil =>
    intro _ b hb u v h
    cases b with
    | nil => rfl
    | cons d b' =>
      rw [List.nil_append, List.cons_append, leadsWith, Bool.and_eq_true, beq_iff_eq] at h
      exact absurd h.1.symm (hb d (List.mem_cons_self d b'))
  | cons c a' ih =>
    intro ha b hb u v h
    cases b with
    | nil =>
      rw [List.cons_append, List.nil_append, leadsWith, Bool.and_eq_true, beq_iff_eq] at h
      exact absurd h.1 (ha c (List.mem_cons_self c a'))
    | cons d b' =>
      rw [List.cons_append, List.cons_append, leadsWith, Bool.and_eq_true, beq_iff_eq] at h
      have := ih (fun x hx => ha x (List.mem_cons_of_mem c hx)) b'
        (fun x hx => hb x (List.mem_cons_of_mem d hx)) u v h.2
      rw [h.1, this]

/-- Key structural fact about masked output: a pattern consisting of
underscore-free characters, then an underscore, then a non-underscore
character can never be a prefix of the masked text of an
underscore-free input — the only underscores the masker introduces are
the leading pair of a placeholder, whose second character is another
underscore. -/
theorem maskGo_G : ∀ (fuel : Nat) {t : Str}, t.length ≤ fuel → (∀ c ∈ t, c ≠ '_') →
    ∀ (cnt : Nat) (w : Str), (∀ c ∈ w, c ≠ '_') → ∀ (d : Char), d ≠ '_' → ∀ (z : Str),
      leadsWith (w ++ '_' :: d :: z) ((maskGo fuel cnt t).1) = false := by
  intro fuel
  induction fuel with
  | zero =>
    intro t h₁ _ cnt w hw d hd z
    have : t = [] := List.eq_nil_of_length_eq_zero (Nat.le_zero.mp h₁)
    subst this
    cases w <;> rfl
  | succ f ih =>
    intro t h₁ ht cnt w hw d hd z
    cases t with
    | nil => cases w <;> rfl
    | cons x rest =>
      have hx : x ≠ '_' := ht x (List.mem_cons_self x rest)
      have hrt : ∀ c ∈ rest, c ≠ '_' := fun c hc => ht c (List.mem_cons_of_mem x hc)
      have hrl : rest.length ≤ f := by simp at h₁; omega
      -- a masked text beginning with a placeholder never matches the pattern
      have hTok : ∀ (M : Str),
          leadsWith (w ++ '_' :: d :: z) ('_' :: '_' :: 'T' :: M) = false := by
        intro M
        cases w with
        | nil =>
          simp only [List.nil_append, leadsWith, beq_self_eq_true, Bool.true_and]
          simp [beq_eq_false_iff_ne.mpr hd]
        | cons a w' =>
          have ha : a ≠ '_' := hw a (List.mem_cons_self a w')
          simp only [List.cons_append, leadsWith]
          simp [beq_eq_false_iff_ne.mpr ha]
      -- a masked text beginning with the unmatched character `x` either
      -- mismatches at `x` or reduces to the induction hypothesis
      have hChr : ∀ (cnt' : Nat),
          leadsWith (w ++ '_' :: d :: z) (x :: (maskGo f cnt' rest).1) = false := by
        intro cnt'
        cases w with
        | nil =>
          simp only [List.nil_append, leadsWith]
          simp [beq_eq_false_iff_ne.mpr (Ne.symm hx)]
        | cons a w' =>
          simp only [List.cons_append, leadsWith]
          by_cases hax : a = x
          · subst hax
            simp only [beq_self_eq_true, Bool.true_and]
            exact ih hrl hrt cnt' w' (fun c hc => hw c (List.mem_cons_of_mem a hc)) d hd z
          · simp [beq_eq_false_iff_ne.mpr hax]
      have hTok' : ∀ (M : Str) (j : Nat),
          leadsWith (w ++ '_' :: d :: z) (tagToken j ++ M) = false := by
        intro M j
        have : tagToken j ++ M = '_' :: '_' :: 'T' :: ('A' :: 'G' :: '_' :: ((decStr j ++ ['_', '_']) ++ M)) := by
          simp [tagToken]
        rw [this]
        exact hTok _
      simp only [maskGo]
      by_cases hx1 : x = '['
      · rw [if_pos hx1]
        cases hb : bracketSplit ']' rest with
        | some p => obtain ⟨run, r'⟩ := p; exact hTok' _ cnt
        | none => exact hChr cnt
      · rw [if_neg hx1]
        by_cases hx2 : x = '{'
        · rw [if_pos hx2]
          cases hb : bracketSplit '}' rest with
          | some p => obtain ⟨run, r'⟩ := p; exact hTok' _ cnt
          | none => exact hChr cnt
        · rw [if_neg hx2]
          by_cases hx3 : x = '%'
          · rw [if_pos hx3]
            cases hb : percentSplit rest with
            | some p => obtain ⟨run, r'⟩ := p; exact hTok' _ cnt
            | none => exact hChr cnt
          · rw [if_neg hx3]
            exact hChr cnt

theorem occursIn_nil {pat : Str} (h : pat ≠ []) : occursIn pat [] = false := by
  cases pat with
  | nil => exact absurd rfl h
  | cons p ps => rfl

/-- A placeholder `__TAG_n__` does not occur in `__TAG_m__ ++ M` for
`n ≠ m`, provided `M` itself avoids it and satisfies the structural
property of masked texts (`hG`). -/
theorem occursIn_token_prepend {n m : Nat} (hnm : n ≠ m) {M : Str}
    (hG : ∀ (w : Str), (∀ c ∈ w, c ≠ '_') → ∀ (d : Char), d ≠ '_' → ∀ (z : Str),
          leadsWith (w ++ '_' :: d :: z) M = false)
    (hocc : occursIn (tagToken n) M = false) :
    occursIn (tagToken n) (tagToken m ++ M) = false := by
  obtain ⟨e, es, hds⟩ := List.exists_cons_of_ne_nil (decStr_ne_nil m)
  obtain ⟨e', es', hds'⟩ := List.exists_cons_of_ne_nil (decStr_ne_nil n)
  have he : e ≠ '_' := (isDigit_ne e (decStr_digits m e (by rw [hds]; exact List.mem_cons_self e es))).1
  have he' : e' ≠ '_' := (isDigit_ne e' (decStr_digits n e' (by rw [hds']; exact List.mem_cons_self e' es'))).1
  have hDrw : tagToken m ++ M
      = '_' :: '_' :: 'T' :: 'A' :: 'G' :: '_' :: (decStr m ++ ('_' :: '_' :: M)) := by
    simp [tagToken]
  rw [hDrw]
  have lw0 : leadsWith (tagToken n) ('_' :: '_' :: 'T' :: 'A' :: 'G' :: '_' :: (decStr m ++ ('_' :: '_' :: M))) = false := by
    have h6 : tagToken n = ['_', '_', 'T', 'A', 'G', '_'] ++ (decStr n ++ ['_', '_']) := by
      simp [tagToken]
    have h6' : '_' :: '_' :: 'T' :: 'A' :: 'G' :: '_' :: (decStr m ++ ('_' :: '_' :: M))
        = ['_', '_', 'T', 'A', 'G', '_'] ++ (decStr m ++ ('_' :: '_' :: M)) := by simp
    rw [h6, h6', leadsWith_append_same]
    cases hval : leadsWith (decStr n ++ ['_', '_']) (decStr m ++ ('_' :: '_' :: M)) with
    | false => rfl
    | true =>
      exfalso
      have hshape : decStr n ++ ['_', '_'] = decStr n ++ '_' :: ['_'] := rfl
      have hshape' : decStr m ++ ('_' :: '_' :: M) = decStr m ++ '_' :: ('_' :: M) := rfl
      rw [hshape, hshape'] at hval
      have := leadsWith_digits (decStr n)
        (fun c hc => (isDigit_ne c (decStr_digits n c hc)).1) (decStr m)
        (fun c hc => (isDigit_ne c (decStr_digits m c hc)).1) _ _ hval
      exact hnm (decStr_inj this)
  have lw1 : leadsWith (tagToken n) ('_' :: 'T' :: 'A' :: 'G' :: '_' :: (decStr m ++ ('_' :: '_' :: M))) = false := by
    simp [tagToken, leadsWith]
  have lw2 : leadsWith (tagToken n) ('T' :: 'A' :: 'G' :: '_' :: (decStr m ++ ('_' :: '_' :: M))) = false := by
    simp [tagToken, leadsWith]
  have lw3 : leadsWith (tagToken n) ('A' :: 'G' :: '_' :: (decStr m ++ ('_' :: '_' :: M))) = false := by
    simp [tagToken, leadsWith]
  have lw4 : leadsWith (tagToken n) ('G' :: '_' :: (decStr m ++ ('_' :: '_' :: M))) = false := by
    simp [tagToken, leadsWith]
  have lw5 : leadsWith (tagToken n) ('_' :: (decStr m ++ ('_' :: '_' :: M))) = false := by
    rw [tagToken, hds]
    simp only [List.cons_append, leadsWith, beq_self_eq_true, Bool.true_and]
    simp [beq_eq_false_iff_ne.mpr (Ne.symm he)]
  have htail : occursIn (tagToken n) (decStr m ++ ('_' :: '_' :: M)) = false := by
    have hchunk : occursIn (tagToken n) (decStr m ++ ('_' :: '_' :: M))
        = occursIn (tagToken n) ('_' :: '_' :: M) := by
      rw [tagToken]
      exact occursIn_chunk _ (decStr m)
        (fun c hc => (isDigit_ne c (decStr_digits m c hc)).1) _
    rw [hchunk]
    have lwA : leadsWith (tagToken n) ('_' :: '_' :: M) = false := by
      rw [tagToken]
      simp only [leadsWith, beq_self_eq_true, Bool.true_and]
      have hshape : 'T' :: 'A' :: 'G' :: '_' :: (decStr n ++ ['_', '_'])
          = ['T', 'A', 'G'] ++ '_' :: e' :: (es' ++ ['_', '_']) := by
        rw [hds']; rfl
      rw [hshape]
      exact hG ['T', 'A', 'G'] (by decide) e' he' _
    have lwB : leadsWith (tagToken n) ('_' :: M) = false := by
      rw [tagToken]
      simp only [leadsWith, beq_self_eq_true, Bool.true_and]
      have hshape : '_' :: 'T' :: 'A' :: 'G' :: '_' :: (decStr n ++ ['_', '_'])
          = [] ++ '_' :: 'T' :: ('A' :: 'G' :: '_' :: (decStr n ++ ['_', '_'])) := rfl
      rw [hshape]
      exact hG [] (by simp) 'T' (by decide) _
    simp only [occursIn, lwA, lwB, Bool.false_or]
    exact hocc
  simp only [occursIn, lw0, lw1, lw2, lw3, lw4, lw5, Bool.false_or]
  exact htail

/-- No placeholder with index below the scanner's counter occurs in the
masked output of an underscore-free input: masking never fabricates a
copy of an earlier placeholder. -/
theorem maskGo_no_token : ∀ (fuel : Nat) {t : Str}, t.length ≤ fuel →
    (∀ c ∈ t, c ≠ '_') → ∀ {cnt n : Nat}, n < cnt →
    occursIn (tagToken n) ((maskGo fuel cnt t).1) = false := by
  intro fuel
  induction fuel with
  | zero =>
    intro t h₁ _ cnt n _
    have : t = [] := List.eq_nil_of_length_eq_zero (Nat.le_zero.mp h₁)
    subst this
    exact occursIn_nil (tagToken_ne_nil n)
  | succ f ih =>
    intro t h₁ ht cnt n hn
    cases t with
    | nil => exact occursIn_nil (tagToken_ne_nil n)
    | cons x rest =>
      have hx : x ≠ '_' := ht x (List.mem_cons_self x rest)
      have hrt : ∀ c ∈ rest, c ≠ '_' := fun c hc => ht c (List.mem_cons_of_mem x hc)
      have hrl : rest.length ≤ f := by simp at h₁; omega
      have hChr : occursIn (tagToken n) (x :: (maskGo f cnt rest).1) = false := by
        have hlw : leadsWith (tagToken n) (x :: (maskGo f cnt rest).1) = false := by
          rw [tagToken, leadsWith]
          simp [beq_eq_false_iff_ne.mpr (Ne.symm hx)]
        rw [occursIn, hlw, Bool.false_or]
        exact ih hrl hrt hn
      have hTokC : ∀ {r' : Str}, r'.length ≤ f → (∀ c ∈ r', c ≠ '_') →
          occursIn (tagToken n) (tagToken cnt ++ (maskGo f (cnt + 1) r').1) = false := by
        intro r' hr'l hr'c
        refine occursIn_token_prepend (by omega) ?_ ?_
        · exact maskGo_G f hr'l hr'c (cnt + 1)
        · exact ih hr'l hr'c (by omega)
      simp only [maskGo]
      by_cases hx1 : x = '['
      · rw [if_pos hx1]
        cases hb : bracketSplit ']' rest with
        | some p =>
          obtain ⟨run, r'⟩ := p
          obtain ⟨he, -, -⟩ := bracketSplit_some hb
          have hl := congrArg List.length he
          simp [List.length_append] at hl
          exact hTokC (by omega) (fun c hc => hrt c (by rw [he]; simp [hc]))
        | none => exact hChr
      · rw [if_neg hx1]
        by_cases hx2 : x = '{'
        · rw [if_pos hx2]
          cases hb : bracketSplit '}' rest with
          | some p =>
            obtain ⟨run, r'⟩ := p
            obtain ⟨he, -, -⟩ := bracketSplit_some hb
            have hl := congrArg List.length he
            simp [List.length_append] at hl
            exact hTokC (by omega) (fun c hc => hrt c (by rw [he]; simp [hc]))
          | none => exact hChr
        · rw [if_neg hx2]
          by_cases hx3 : x = '%'
          · rw [if_pos hx3]
            cases hb : percentSplit rest with
            | some p =>
              obtain ⟨run, r'⟩ := p
              obtain ⟨he, -, -⟩ := percentSplit_some hb
              have hl := congrArg List.length he
              simp [List.length_append] at hl
              exact hTokC (by omega) (fun c hc => hrt c (by rw [he]; simp [hc]))
            | none => exact hChr
          · rw [if_neg hx3]
            exact hChr

theorem replaceAllJS_chunk {p : Char} {pr v : Str} (hv : ∀ c ∈ v, c ≠ '$')
    (A : Str) (hA : ∀ c ∈ A, c ≠ p) (M : Str) :
    replaceAllJS (p :: pr) v (A ++ M) = A ++ replaceAllJS (p :: pr) v M := by
  unfold replaceAllJS
  rw [if_neg (by simp), if_neg (by simp)]
  rw [replAux_chunk pr v A hA M []]
  rw [replAux_before_irrel hv (p :: pr) M 0 (A.reverse ++ []) []]

theorem restoreTags_step (X : Str) (kv : Str × Str) (ps : List (Str × Str)) :
    restoreTags X (kv :: ps) = restoreTags (replaceAllJS kv.1 kv.2 X) ps := rfl

theorem restoreTags_chunk : ∀ (ps : List (Str × Str)),
    (∀ kv ∈ ps, (∃ pr, kv.1 = '_' :: pr) ∧ ∀ c ∈ kv.2, c ≠ '$') →
    ∀ (A : Str), (∀ c ∈ A, c ≠ '_') → ∀ (M : Str),
      restoreTags (A ++ M) ps = A ++ restoreTags M ps := by
  intro ps
  induction ps with
  | nil => intro _ A _ M; rfl
  | cons kv ps' ih =>
    intro hps A hA M
    obtain ⟨⟨pr, hk⟩, hv⟩ := hps kv (List.mem_cons_self kv ps')
    rw [restoreTags_step, restoreTags_step, hk,
      replaceAllJS_chunk hv A (fun c hc => hA c hc) M,
      ih (fun x hx => hps x (List.mem_cons_of_mem kv hx)) A hA _]

theorem restore_token_step {cnt : Nat} {v M' : Str} (hv : ∀ c ∈ v, c ≠ '$')
    (hocc : occursIn (tagToken cnt) M' = false) :
    replaceAllJS (tagToken cnt) v (tagToken cnt ++ M') = v ++ M' := by
  unfold replaceAllJS
  rw [if_neg (tagToken_ne_nil cnt)]
  have hsh : tagToken cnt ++ M'
      = '_' :: (('_' :: 'T' :: 'A' :: 'G' :: '_' :: (decStr cnt ++ ['_', '_'])) ++ M') := by
    simp [tagToken]
  rw [hsh]
  simp only [replAux]
  rw [if_pos (by rw [← hsh]; exact leadsWith_self (tagToken cnt) M')]
  rw [expandRepl_const hv]
  congr 1
  rw [replAux_skip]
  have hD : (List.append (decStr cnt ++ ['_', '_']) M') = (decStr cnt ++ ['_', '_']) ++ M' := rfl
  rw [hD, List.drop_left]
  exact replAux_no_occ v M' hocc _

theorem maskGo_ps : ∀ (fuel : Nat) {t : Str}, t.length ≤ fuel → ∀ (cnt : Nat),
    ∀ kv ∈ (maskGo fuel cnt t).2,
      (∃ j, cnt ≤ j ∧ kv.1 = tagToken j) ∧ (∀ c ∈ kv.2, c ∈ t) := by
  intro fuel
  induction fuel with
  | zero =>
    intro t h₁ cnt kv hkv
    simp [maskGo] at hkv
  | succ f ih =>
    intro t h₁ cnt kv hkv
    cases t with
    | nil => simp [maskGo] at hkv
    | cons x rest =>
      have hrl : rest.length ≤ f := by simp at h₁; omega
      have hsub : ∀ kv', kv' ∈ (maskGo f cnt rest).2 →
          (∃ j, cnt ≤ j ∧ kv'.1 = tagToken j) ∧ ∀ c ∈ kv'.2, c ∈ x :: rest := by
        intro kv' hkv'
        obtain ⟨hj, hc⟩ := ih hrl cnt kv' hkv'
        exact ⟨hj, fun c hcc => List.mem_cons_of_mem x (hc c hcc)⟩
      simp only [maskGo] at hkv
      by_cases hx1 : x = '['
      · rw [if_pos hx1] at hkv
        cases hb : bracketSplit ']' rest with
        | some p =>
          obtain ⟨run, r'⟩ := p
          rw [hb] at hkv
          obtain ⟨he, -, -⟩ := bracketSplit_some hb
          have hl := congrArg List.length he
          simp [List.length_append] at hl
          rcases List.mem_cons.mp hkv with rfl | hmem
          · refine ⟨⟨cnt, le_refl cnt, rfl⟩, ?_⟩
            intro c hc
            subst hx1
            rw [he]
            simp only [List.mem_cons, List.mem_append, List.mem_singleton] at hc ⊢
            tauto
          · obtain ⟨⟨j, hj, hk⟩, hc⟩ := ih (by omega) (cnt + 1) kv hmem
            refine ⟨⟨j, by omega, hk⟩, ?_⟩
            intro c hcc
            exact List.mem_cons_of_mem x (by rw [he]; simp [hc c hcc])
        | none =>
          rw [hb] at hkv
          exact hsub kv hkv
      · rw [if_neg hx1] at hkv
        by_cases hx2 : x = '{'
        · rw [if_pos hx2] at hkv
          cases hb : bracketSplit '}' rest with
          | some p =>
            obtain ⟨run, r'⟩ := p
            rw [hb] at hkv
            obtain ⟨he, -, -⟩ := bracketSplit_some hb
            have hl := congrArg List.length he
            simp [List.length_append] at hl
            rcases List.mem_cons.mp hkv with rfl | hmem
            · refine ⟨⟨cnt, le_refl cnt, rfl⟩, ?_⟩
              intro c hc
              subst hx2
              rw [he]
              simp only [List.mem_cons, List.mem_append, List.mem_singleton] at hc ⊢
              tauto
            · obtain ⟨⟨j, hj, hk⟩, hc⟩ := ih (by omega) (cnt + 1) kv hmem
              refine ⟨⟨j, by omega, hk⟩, ?_⟩
              intro c hcc
              exact List.mem_cons_of_mem x (by rw [he]; simp [hc c hcc])
          | none =>
            rw [hb] at hkv
            exact hsub kv hkv
        · rw [if_neg hx2] at hkv
          by_cases hx3 : x = '%'
          · rw [if_pos hx3] at hkv
            cases hb : percentSplit rest with
            | some p =>
              obtain ⟨run, r'⟩ := p
              rw [hb] at hkv
              obtain ⟨he, -, -⟩ := percentSplit_some hb
              have hl := congrArg List.length he
              simp [List.length_append] at hl
              rcases List.mem_cons.mp hkv with rfl | hmem
              · refine ⟨⟨cnt, le_refl cnt, rfl⟩, ?_⟩
                intro c hc
                subst hx3
                rw [he]
                simp only [List.mem_cons, List.mem_append, List.mem_singleton] at hc ⊢
                tauto
              · obtain ⟨⟨j, hj, hk⟩, hc⟩ := ih (by omega) (cnt + 1) kv hmem
                refine ⟨⟨j, by omega, hk⟩, ?_⟩
                intro c hcc
                exact List.mem_cons_of_mem x (by rw [he]; simp [hc c hcc])
            | none =>
              rw [hb] at hkv
              exact hsub kv hkv
          · rw [if_neg hx3] at hkv
            exact hsub kv hkv

/-- Round trip of the legacy masker, generalized over fuel and counter:
for input free of underscores (which excludes collisions with the
reserved `__TAG_i__` placeholders) and free of dollars (which keeps the
replacement-template expansion of `restoreTags` literal), restoring the
masked text yields the input back. -/
theorem maskGo_roundTrip : ∀ (fuel : Nat) {t : Str}, t.length ≤ fuel →
    (∀ c ∈ t, c ≠ '_') → (∀ c ∈ t, c ≠ '$') → ∀ (cnt : Nat),
    restoreTags (maskGo fuel cnt t).1 (maskGo fuel cnt t).2 = t := by
  intro fuel
  induction fuel with
  | zero =>
    intro t h₁ _ _ cnt
    have : t = [] := List.eq_nil_of_length_eq_zero (Nat.le_zero.mp h₁)
    subst this
    rfl
  | succ f ih =>
    intro t h₁ hus hds cnt
    cases t with
    | nil => rfl
    | cons x rest =>
      have hx : x ≠ '_' := hus x (List.mem_cons_self x rest)
      have hrus : ∀ c ∈ rest, c ≠ '_' := fun c hc => hus c (List.mem_cons_of_mem x hc)
      have hrds : ∀ c ∈ rest, c ≠ '$' := fun c hc => hds c (List.mem_cons_of_mem x hc)
      have hrl : rest.length ≤ f := by simp at h₁; omega
      -- properties of the recursive placeholder list
      have hpsP : ∀ (cnt' : Nat) {u : Str}, u.length ≤ f → (∀ c ∈ u, c ∈ rest) →
          ∀ kv ∈ (maskGo f cnt' u).2, (∃ pr, kv.1 = '_' :: pr) ∧ ∀ c ∈ kv.2, c ≠ '$' := by
        intro cnt' u hul husub kv hkv
        obtain ⟨⟨j, -, hk⟩, hcin⟩ := maskGo_ps f hul cnt' kv hkv
        refine ⟨⟨_, by rw [hk]; rfl⟩, ?_⟩
        intro c hc
        exact hrds c (husub c (hcin c hc))
      -- the unmatched-character case
      have hChr : restoreTags (x :: (maskGo f cnt rest).1) (maskGo f cnt rest).2
          = x :: rest := by
        have hskip := restoreTags_chunk (maskGo f cnt rest).2
          (hpsP cnt hrl (fun c hc => hc)) [x] (by simpa using hx) (maskGo f cnt rest).1
        simp only [List.cons_append, List.nil_append] at hskip
        rw [hskip, ih hrl hrus hrds cnt]
      -- the matched case, for each of the three alternatives
      have hTok : ∀ {v r' : Str}, r'.length ≤ f → (∀ c ∈ r', c ∈ rest) →
          (∀ c ∈ v, c ≠ '_') → (∀ c ∈ v, c ≠ '$') →
          restoreTags (tagToken cnt ++ (maskGo f (cnt + 1) r').1)
            ((tagToken cnt, v) :: (maskGo f (cnt + 1) r').2) = v ++ r' := by
        intro v r' hr'l hr'sub hv_us hv_ds
        have hr'us : ∀ c ∈ r', c ≠ '_' := fun c hc => hrus c (hr'sub c hc)
        have hr'ds : ∀ c ∈ r', c ≠ '$' := fun c hc => hrds c (hr'sub c hc)
        rw [restoreTags_step]
        rw [restore_token_step hv_ds (maskGo_no_token f hr'l hr'us (Nat.lt_succ_self cnt))]
        rw [restoreTags_chunk (maskGo f (cnt + 1) r').2 (hpsP (cnt + 1) hr'l hr'sub) v hv_us _]
        rw [ih hr'l hr'us hr'ds (cnt + 1)]
      simp only [maskGo]
      by_cases hx1 : x = '['
      · rw [if_pos hx1]
        cases hb : bracketSplit ']' rest with
        | some pq =>
          obtain ⟨run, r'⟩ := pq
          obtain ⟨he, -, -⟩ := bracketSplit_some hb
          have hl := congrArg List.length he
          simp [List.length_append] at hl
          have hsubv : ∀ c ∈ ('[' :: run ++ ([']'] : Str)), c ∈ x :: rest := by
            intro c hc
            subst hx1
            rw [he]
            simp only [List.mem_cons, List.mem_append, List.mem_singleton] at hc ⊢
            tauto
          rw [hTok (by omega) (fun c hc => by rw [he]; simp [hc])
            (fun c hc => hus c (hsubv c hc)) (fun c hc => hds c (hsubv c hc))]
          rw [hx1, he]
          simp
        | none => exact hChr
      · rw [if_neg hx1]
        by_cases hx2 : x = '{'
        · rw [if_pos hx2]
          cases hb : bracketSplit '}' rest with
          | some pq =>
            obtain ⟨run, r'⟩ := pq
            obtain ⟨he, -, -⟩ := bracketSplit_some hb
            have hl := congrArg List.length he
            simp [List.length_append] at hl
            have hsubv : ∀ c ∈ ('{' :: run ++ (['}'] : Str)), c ∈ x :: rest := by
              intro c hc
              subst hx2
              rw [he]
              simp only [List.mem_cons, List.mem_append, List.mem_singleton] at hc ⊢
              tauto
            rw [hTok (by omega) (fun c hc => by rw [he]; simp [hc])
              (fun c hc => hus c (hsubv c hc)) (fun c hc => hds c (hsubv c hc))]
            rw [hx2, he]
            simp
          | none => exact hChr
        · rw [if_neg hx2]
          by_cases hx3 : x = '%'
          · rw [if_pos hx3]
            cases hb : percentSplit rest with
            | some pq =>
              obtain ⟨run, r'⟩ := pq
              obtain ⟨he, -, -⟩ := percentSplit_some hb
              have hl := congrArg List.length he
              simp [List.length_append] at hl
              have hsubv : ∀ c ∈ ('%' :: '(' :: run ++ ([')', 's'] : Str)), c ∈ x :: rest := by
                intro c hc
                subst hx3
                rw [he]
                simp only [List.mem_cons, List.mem_append, List.mem_singleton] at hc ⊢
                tauto
              rw [hTok (by omega) (fun c hc => by rw [he]; simp [hc])
                (fun c hc => hus c (hsubv c hc)) (fun c hc => hds c (hsubv c hc))]
              rw [hx3, he]
              simp
            | none => exact hChr
          · rw [if_neg hx3]
            exact hChr

theorem spanTo_none_of {close : Char} : ∀ {rest : Str},
    (∀ c ∈ rest, c ≠ close) → spanTo close rest = none := by
  intro rest
  induction rest with
  | nil => intro _; rfl
  | cons c r ih =>
    intro h
    simp only [spanTo]
    rw [if_neg (h c (List.mem_cons_self c r)), ih (fun x hx => h x (List.mem_cons_of_mem c hx))]

theorem bracketSplit_none_head {close : Char} (r : Str) :
    bracketSplit close (close :: r) = none := by
  unfold bracketSplit
  simp [spanTo]

theorem bracketSplit_none_not_mem {close : Char} {rest : Str}
    (h : ∀ c ∈ rest, c ≠ close) : bracketSplit close rest = none := by
  unfold bracketSplit
  rw [spanTo_none_of h]

theorem tagToken_chars {n : Nat} : ∀ c ∈ tagToken n,
    c = '_' ∨ c = 'T' ∨ c = 'A' ∨ c = 'G' ∨ c.isDigit = true := by
  intro c hc
  simp only [tagToken, List.mem_cons, List.mem_append, List.mem_singleton] at hc
  rcases hc with rfl | rfl | rfl | rfl | rfl | rfl | h | h
  · exact Or.inl rfl
  · exact Or.inl rfl
  · exact Or.inr (Or.inl rfl)
  · exact Or.inr (Or.inr (Or.inl rfl))
  · exact Or.inr (Or.inr (Or.inr (Or.inl rfl)))
  · exact Or.inl rfl
  · exact Or.inr (Or.inr (Or.inr (Or.inr (decStr_digits n c h))))
  · rcases h with rfl | h
    · exact Or.inl rfl
    · simp at h; subst h; exact Or.inl rfl

/-- Characters of the masked text: original characters of the input,
or characters of a placeholder. -/
theorem maskGo_chars : ∀ (fuel : Nat) {t : Str}, t.length ≤ fuel → ∀ (cnt : Nat),
    ∀ c ∈ (maskGo fuel cnt t).1,
      c ∈ t ∨ c = '_' ∨ c = 'T' ∨ c = 'A' ∨ c = 'G' ∨ c.isDigit = true := by
  intro fuel
  induction fuel with
  | zero =>
    intro t _ cnt c hc
    exact Or.inl hc
  | succ f ih =>
    intro t h₁ cnt c hc
    cases t with
    | nil => simp [maskGo] at hc
    | cons x rest =>
      have hrl : rest.length ≤ f := by simp at h₁; omega
      have hsub : c ∈ (maskGo f cnt rest).1 → _ := fun hm =>
        (ih hrl cnt c hm).imp (fun hi => List.mem_cons_of_mem x hi) id
      have hTokC : ∀ {r' : Str}, r'.length ≤ f → (∀ d ∈ r', d ∈ rest) →
          c ∈ tagToken cnt ++ (maskGo f (cnt + 1) r').1 →
          c ∈ x :: rest ∨ c = '_' ∨ c = 'T' ∨ c = 'A' ∨ c = 'G' ∨ c.isDigit = true := by
        intro r' hr'l hr'sub hm
        rcases List.mem_append.mp hm with hm | hm
        · exact Or.inr (tagToken_chars c hm)
        · exact (ih hr'l (cnt + 1) c hm).imp
            (fun hi => List.mem_cons_of_mem x (hr'sub c hi)) id
      simp only [maskGo] at hc
      by_cases hx1 : x = '['
      · rw [if_pos hx1] at hc
        cases hb : bracketSplit ']' rest with
        | some pq =>
          obtain ⟨run, r'⟩ := pq
          rw [hb] at hc
          obtain ⟨he, -, -⟩ := bracketSplit_some hb
          have hl := congrArg List.length he
          simp [List.length_append] at hl
          exact hTokC (by omega) (fun d hd => by rw [he]; simp [hd]) hc
        | none =>
          rw [hb] at hc
          rcases List.mem_cons.mp hc with rfl | hm
          · exact Or.inl (List.mem_cons_self c rest)
          · exact hsub hm
      · rw [if_neg hx1] at hc
        by_cases hx2 : x = '{'
        · rw [if_pos hx2] at hc
          cases hb : bracketSplit '}' rest with
          | some pq =>
            obtain ⟨run, r'⟩ := pq
            rw [hb] at hc
            obtain ⟨he, -, -⟩ := bracketSplit_some hb
            have hl := congrArg List.length he
            simp [List.length_append] at hl
            exact hTokC (by omega) (fun d hd => by rw [he]; simp [hd]) hc
          | none =>
            rw [hb] at hc
            rcases List.mem_cons.mp hc with rfl | hm
            · exact Or.inl (List.mem_cons_self c rest)
            · exact hsub hm
        · rw [if_neg hx2] at hc
          by_cases hx3 : x = '%'
          · rw [if_pos hx3] at hc
            cases hb : percentSplit rest with
            | some pq =>
              obtain ⟨run, r'⟩ := pq
              rw [hb] at hc
              obtain ⟨he, -, -⟩ := percentSplit_some hb
              have hl := congrArg List.length he
              simp [List.length_append] at hl
              exact hTokC (by omega) (fun d hd => by rw [he]; simp [hd]) hc
            | none =>
              rw [hb] at hc
              rcases List.mem_cons.mp hc with rfl | hm
              · exact Or.inl (List.mem_cons_self c rest)
              · exact hsub hm
          · rw [if_neg hx3] at hc
            rcases List.mem_cons.mp hc with rfl | hm
            · exact Or.inl (List.mem_cons_self c rest)
            · exact hsub hm

/-- Texts on which the masking scanner finds no match at all: every
bracket either closes immediately or never closes, every brace likewise,
and no percent sign occurs. -/
inductive Benign : Str → Prop
  | nil : Benign []
  | brk {rest : Str} : (rest.head? = some ']' ∨ ']' ∉ rest) → Benign rest →
      Benign ('[' :: rest)
  | brc {rest : Str} : (rest.head? = some '}' ∨ '}' ∉ rest) → Benign rest →
      Benign ('{' :: rest)
  | oth {c : Char} {rest : Str} : c ≠ '[' → c ≠ '{' → c ≠ '%' → Benign rest →
      Benign (c :: rest)

theorem Benign_prepend {A : Str}
    (hA : ∀ c ∈ A, c ≠ '[' ∧ c ≠ '{' ∧ c ≠ '%') {M : Str} (hM : Benign M) :
    Benign (A ++ M) := by
  induction A with
  | nil => exact hM
  | cons a A' ih =>
    obtain ⟨h1, h2, h3⟩ := hA a (List.mem_cons_self a A')
    exact Benign.oth h1 h2 h3 (ih (fun c hc => hA c (List.mem_cons_of_mem a hc)))

/-- On a benign text the scanner is the identity and records nothing. -/
theorem Benign_scan {s : Str} (hB : Benign s) :
    ∀ (fuel : Nat), s.length ≤ fuel → ∀ (cnt : Nat), maskGo fuel cnt s = (s, []) := by
  induction hB with
  | nil => intro fuel _ cnt; cases fuel <;> rfl
  | brk hd hB' ih =>
    rename_i rest
    intro fuel hlen cnt
    cases fuel with
    | zero => simp at hlen
    | succ f =>
      have hrl : rest.length ≤ f := by simp at hlen; omega
      have hnone : bracketSplit ']' rest = none := by
        rcases hd with hd | hd
        · cases rest with
          | nil => simp at hd
          | cons y r =>
            simp only [List.head?_cons, Option.some.injEq] at hd
            subst hd
            exact bracketSplit_none_head r
        · exact bracketSplit_none_not_mem (fun c hc => fun hcc => hd (hcc ▸ hc))
      simp [maskGo, hnone, ih f hrl cnt]
  | brc hd hB' ih =>
    rename_i rest
    intro fuel hlen cnt
    cases fuel with
    | zero => simp at hlen
    | succ f =>
      have hrl : rest.length ≤ f := by simp at hlen; omega
      have hnone : bracketSplit '}' rest = none := by
        rcases hd with hd | hd
        · cases rest with
          | nil => simp at hd
          | cons y r =>
            simp only [List.head?_cons, Option.some.injEq] at hd
            subst hd
            exact bracketSplit_none_head r
        · exact bracketSplit_none_not_mem (fun c hc => fun hcc => hd (hcc ▸ hc))
      simp [maskGo, hnone, ih f hrl cnt]
  | oth h1 h2 h3 hB' ih =>
    rename_i c rest
    intro fuel hlen cnt
    cases fuel with
    | zero => simp at hlen
    | succ f =>
      have hrl : rest.length ≤ f := by simp at hlen; omega
      simp [maskGo, h1, h2, h3, ih f hrl cnt]

/-- Step equation used below: scanning a text headed by a non-trigger
character emits that character. -/
theorem maskGo_step_oth {x : Char} (h1 : x ≠ '[') (h2 : x ≠ '{') (h3 : x ≠ '%')
    (f cnt : Nat) (u : Str) :
    (maskGo (f + 1) cnt (x :: u)).1 = x :: (maskGo f cnt u).1 := by
  simp only [maskGo, if_neg h1, if_neg h2, if_neg h3]

/-- Masked output of a percent-free text is benign: remasking it finds
nothing.  (With percent signs present this fails; see the counterexample
below.) -/
theorem maskGo_benign : ∀ (fuel : Nat) {t : Str}, t.length ≤ fuel →
    ('%' ∉ t) → ∀ (cnt : Nat), Benign ((maskGo fuel cnt t).1) := by
  intro fuel
  induction fuel with
  | zero =>
    intro t h₁ _ cnt
    have : t = [] := List.eq_nil_of_length_eq_zero (Nat.le_zero.mp h₁)
    subst this
    exact Benign.nil
  | succ f ih =>
    intro t h₁ hp cnt
    cases t with
    | nil => exact Benign.nil
    | cons x rest =>
      have hxp : x ≠ '%' := fun hcc => hp (hcc ▸ List.mem_cons_self x rest)
      have hrp : '%' ∉ rest := fun hm => hp (List.mem_cons_of_mem x hm)
      have hrl : rest.length ≤ f := by simp at h₁; omega
      have hTokB : ∀ {r' : Str}, r'.length ≤ f → (∀ d ∈ r', d ∈ rest) →
          Benign (tagToken cnt ++ (maskGo f (cnt + 1) r').1) := by
        intro r' hr'l hr'sub
        refine Benign_prepend ?_ (ih hr'l (fun hm => hrp (hr'sub '%' hm)) (cnt + 1))
        intro c hc
        rcases tagToken_chars c hc with rfl | rfl | rfl | rfl | hdig
        · exact ⟨by decide, by decide, by decide⟩
        · exact ⟨by decide, by decide, by decide⟩
        · exact ⟨by decide, by decide, by decide⟩
        · exact ⟨by decide, by decide, by decide⟩
        · have := isDigit_ne c hdig
          exact ⟨this.2.2.2.2.1, this.2.2.2.2.2.1, this.2.2.1⟩
      simp only [maskGo]
      by_cases hx1 : x = '['
      · rw [if_pos hx1]
        cases hb : bracketSplit ']' rest with
        | some pq =>
          obtain ⟨run, r'⟩ := pq
          obtain ⟨he, -, -⟩ := bracketSplit_some hb
          have hl := congrArg List.length he
          simp [List.length_append] at hl
          exact hTokB (by omega) (fun d hd => by rw [he]; simp [hd])
        | none =>
          subst hx1
          show Benign ('[' :: (maskGo f cnt rest).1)
          refine Benign.brk ?_ (ih hrl hrp cnt)
          unfold bracketSplit at hb
          cases hs : spanTo ']' rest with
          | some pq =>
            obtain ⟨run, r⟩ := pq
            rw [hs] at hb
            cases run with
            | nil =>
              obtain ⟨he, -⟩ := spanTo_some hs
              rw [List.nil_append] at he
              left
              subst he
              cases f with
              | zero => simp at hrl
              | succ f' =>
                rw [maskGo_step_oth (by decide) (by decide) (by decide) f' cnt r]
                rfl
            | cons a run' => simp at hb
          | none =>
            right
            intro hm
            have := maskGo_chars f hrl cnt ']' hm
            rcases this with hin | h | h | h | h | h
            · exact (spanTo_none hs ']' hin) rfl
            · simp at h
            · simp at h
            · simp at h
            · simp at h
            · exact absurd h (by decide)
      · rw [if_neg hx1]
        by_cases hx2 : x = '{'
        · rw [if_pos hx2]
          cases hb : bracketSplit '}' rest with
          | some pq =>
            obtain ⟨run, r'⟩ := pq
            obtain ⟨he, -, -⟩ := bracketSplit_some hb
            have hl := congrArg List.length he
            simp [List.length_append] at hl
            exact hTokB (by omega) (fun d hd => by rw [he]; simp [hd])
          | none =>
            subst hx2
            show Benign ('{' :: (maskGo f cnt rest).1)
            refine Benign.brc ?_ (ih hrl hrp cnt)
            unfold bracketSplit at hb
            cases hs : spanTo '}' rest with
            | some pq =>
              obtain ⟨run, r⟩ := pq
              rw [hs] at hb
              cases run with
              | nil =>
                obtain ⟨he, -⟩ := spanTo_some hs
                rw [List.nil_append] at he
                left
                subst he
                cases f with
                | zero => simp at hrl
                | succ f' =>
                  rw [maskGo_step_oth (by decide) (by decide) (by decide) f' cnt r]
                  rfl
              | cons a run' => simp at hb
            | none =>
              right
              intro hm
              have := maskGo_chars f hrl cnt '}' hm
              rcases this with hin | h | h | h | h | h
              · exact (spanTo_none hs '}' hin) rfl
              · simp at h
              · simp at h
              · simp at h
              · simp at h
              · exact absurd h (by decide)
        · rw [if_neg hx2]
          rw [if_neg hxp]
          show Benign (x :: (maskGo f cnt rest).1)
          exact Benign.oth hx1 hx2 hxp (ih hrl hrp cnt)

/-! ### A model of JSON (`JSON.parse` / `JSON.stringify`)

Needed by the structured-data branch of `extractTexts` / `mergeBack` and
by the lenient array parser `safeParseJsonArray`.  Numeric literals are
kept as their source lexeme; re-serializing a number prints that lexeme
rather than JavaScript's canonical float formatting — an approximation
that no theorem below depends on. -/

inductive Json where
  | jnull
  | jbool (b : Bool)
  | jnum (lex : Str)
  | jstr (s : Str)
  | jarr (items : List Json)
  | jobj (fields : List (Str × Json))

/-- JSON whitespace. -/
def jsonWs (c : Char) : Bool := c = ' ' ∨ c = '\t' ∨ c = '\n' ∨ c = '\r'

def skipWs (t : Str) : Str := t.dropWhile jsonWs

/-- Hex digit value. -/
def hexVal (c : Char) : Option Nat :=
  if c.isDigit then some (c.toNat - 48)
  else if 'a' ≤ c ∧ c ≤ 'f' then some (c.toNat - 97 + 10)
  else if 'A' ≤ c ∧ c ≤ 'F' then some (c.toNat - 65 + 10)
  else none

/-- Parse the body of a JSON string literal (after the opening quote),
returning the decoded characters and the input after the closing quote. -/
def parseStrBody : Str → Option (Str × Str)
  | [] => none
  | '"' :: rest => some ([], rest)
  | '\\' :: 'u' :: h1 :: h2 :: h3 :: h4 :: rest =>
    match hexVal h1, hexVal h2, hexVal h3, hexVal h4 with
    | some a, some b, some c, some d =>
      match parseStrBody rest with
      | some (sres, r) => some (Char.ofNat (((a * 16 + b) * 16 + c) * 16 + d) :: sres, r)
      | none => none
    | _, _, _, _ => none
  | '\\' :: e :: rest =>
    match
      (if e = '"' then some '"'
       else if e = '\\' then some '\\'
       else if e = '/' then some '/'
       else if e = 'b' then some (Char.ofNat 8)
       else if e = 'f' then some (Char.ofNat 12)
       else if e = 'n' then some '\n'
       else if e = 'r' then some '\r'
       else if e = 't' then some '\t'
       else none) with
    | some c =>
      match parseStrBody rest with
      | some (sres, r) => some (c :: sres, r)
      | none => none
    | none => none
  | c :: rest =>
    match parseStrBody rest with
    | some (sres, r) => some (c :: sres, r)
    | none => none

/-- Parse a JSON numeric literal, returning its lexeme. -/
def parseNumLex (t : Str) : Option (Str × Str) :=
  let (neg, t1) := match t with
    | '-' :: r => ((['-'] : Str), r)
    | _ => ([], t)
  let intPart := t1.takeWhile (fun c : Char => c.isDigit)
  if intPart = [] then none
  else if intPart.length > 1 ∧ intPart.head? = some '0' then none
  else
    let t2 := t1.drop intPart.length
    let (fracPart, t3) := match t2 with
      | '.' :: r =>
        let ds := r.takeWhile (fun c : Char => c.isDigit)
        if ds = [] then (([] : Str), t2) else ('.' :: ds, r.drop ds.length)
      | _ => ([], t2)
    if t2 ≠ t3 ∨ fracPart = [] then
      let (expPart, t4) := match t3 with
        | e :: sgn :: r =>
          if (e = 'e' ∨ e = 'E') ∧ (sgn = '+' ∨ sgn = '-') then
            let ds := r.takeWhile (fun c : Char => c.isDigit)
            if ds = [] then (([] : Str), t3) else (e :: sgn :: ds, r.drop ds.length)
          else if (e = 'e' ∨ e = 'E') ∧ sgn.isDigit then
            let ds := (sgn :: r).takeWhile (fun c : Char => c.isDigit)
            (e :: ds, (sgn :: r).drop ds.length)
          else ([], t3)
        | [e] =>
          ([], t3)
        | [] => ([], t3)
      some (neg ++ intPart ++ fracPart ++ expPart, t4)
    else none

/-- Parsing modes for the single fueled JSON parser. -/
inductive JMode where
  | value
  | elems
  | fields

/-- Parse results for the single fueled JSON parser. -/
inductive JOut where
  | v (x : Json)
  | vs (xs : List Json)
  | fs (xs : List (Str × Json))

/-- One recursive-descent JSON parser over all three modes, structural
in the fuel.  `elems` and `fields` parse the members after the opening
bracket of an array or object (empty case handled by the caller). -/
def jparse : Nat → JMode → Str → Option (JOut × Str)
  | 0, _, _ => none
  | fuel + 1, JMode.value, t =>
    match skipWs t with
    | 'n' :: 'u' :: 'l' :: 'l' :: r => some (JOut.v Json.jnull, r)
    | 't' :: 'r' :: 'u' :: 'e' :: r => some (JOut.v (Json.jbool true), r)
    | 'f' :: 'a' :: 'l' :: 's' :: 'e' :: r => some (JOut.v (Json.jbool false), r)
    | '"' :: r =>
      match parseStrBody r with
      | some (sres, r') => some (JOut.v (Json.jstr sres), r')
      | none => none
    | '[' :: r =>
      (match skipWs r with
       | ']' :: r' => some (JOut.v (Json.jarr []), r')
       | _ =>
         match jparse fuel JMode.elems r with
         | some (JOut.vs xs, r') => some (JOut.v (Json.jarr xs), r')
         | _ => none)
    | '{' :: r =>
      (match skipWs r with
       | '}' :: r' => some (JOut.v (Json.jobj []), r')
       | _ =>
         match jparse fuel JMode.fields r with
         | some (JOut.fs xs, r') => some (JOut.v (Json.jobj xs), r')
         | _ => none)
    | t' => match parseNumLex t' with
      | some (lex, r') => some (JOut.v (Json.jnum lex), r')
      | none => none
  | fuel + 1, JMode.elems, t =>
    match jparse fuel JMode.value t with
    | some (JOut.v x, r) =>
      (match skipWs r with
       | ',' :: r' =>
         match jparse fuel JMode.elems r' with
         | some (JOut.vs xs, r'') => some (JOut.vs (x :: xs), r'')
         | _ => none
       | ']' :: r' => some (JOut.vs [x], r')
       | _ => none)
    | _ => none
  | fuel + 1, JMode.fields, t =>
    match skipWs t with
    | '"' :: r =>
      match parseStrBody r with
      | some (key, r') =>
        (match skipWs r' with
         | ':' :: r'' =>
           match jparse fuel JMode.value r'' with
           | some (JOut.v x, r3) =>
             (match skipWs r3 with
              | ',' :: r4 =>
                match jparse fuel JMode.fields r4 with
                | some (JOut.fs xs, r5) => some (JOut.fs ((key, x) :: xs), r5)
                | _ => none
              | '}' :: r4 => some (JOut.fs [(key, x)], r4)
              | _ => none)
           | _ => none
         | _ => none)
      | none => none
    | _ => none

/-- `JSON.parse`: parse one value and require only whitespace after it. -/
def jsonParse (t : Str) : Option Json :=
  match jparse (2 * t.length + 2) JMode.value t with
  | some (JOut.v x, r) => if skipWs r = [] then some x else none
  | _ => none

/-- JavaScript `String.prototype.trim` whitespace. -/
def jsWs (c : Char) : Bool :=
  c = ' ' ∨ c = '\t' ∨ c = '\n' ∨ c = '\r' ∨ c = Char.ofNat 11 ∨ c = Char.ofNat 12 ∨
  c = Char.ofNat 160 ∨ c = Char.ofNat 65279

def jsTrim (t : Str) : Str := ((t.dropWhile jsWs).reverse.dropWhile jsWs).reverse

/-- ASCII lowering, the part of `toLowerCase` these inputs exercise. -/
def jsLowerChar (c : Char) : Char :=
  if 'A' ≤ c ∧ c ≤ 'Z' then Char.ofNat (c.toNat + 32) else c

def jsLower (t : Str) : Str := t.map jsLowerChar

def fence3 : Str := [btickC, btickC, btickC]

/-- Strip a leading code fence, optionally tagged `json` (case-insensitive):
the `replace` with an anchored regex in `safeParseJsonArray`. -/
def stripFenceStart (s : Str) : Str :=
  if leadsWith fence3 s then
    let r := s.drop 3
    if jsLower (r.take 4) = 'j' :: 's' :: 'o' :: 'n' :: [] then r.drop 4 else r
  else s

/-- Strip a trailing code fence. -/
def stripFenceEnd (s : Str) : Str :=
  if leadsWith fence3 s.reverse then (s.reverse.drop 3).reverse else s

/-- The regex match `\[[\s\S]*\]` of `safeParseJsonArray`: greedy, so the
span runs from the first opening bracket to the last closing bracket of
the whole text (not to the first well-formed array). -/
def jsSpanMatch (t : Str) : Option Str :=
  match t.dropWhile (fun c : Char => c != '[') with
  | [] => none
  | _ :: tail =>
    match tail.reverse.dropWhile (fun c : Char => c != ']') with
    | [] => none
    | afterClose => some ('[' :: afterClose.reverse)

mutual
/-- `String(x ?? '')` on a parsed JSON element, as the element mapping in
`safeParseJsonArray` applies it.  Number formatting is approximated by
the numeric lexeme; no theorem depends on non-string elements. -/
def jsToElemString : Json → Str
  | Json.jstr s => s
  | Json.jnull => []
  | Json.jbool true => 't' :: 'r' :: 'u' :: 'e' :: []
  | Json.jbool false => 'f' :: 'a' :: 'l' :: 's' :: 'e' :: []
  | Json.jnum lex => lex
  | Json.jarr items => jsToElemJoin items
  | Json.jobj _ => ('[' :: 'o' :: 'b' :: 'j' :: 'e' :: 'c' :: 't' :: ' ' :: 'O' :: 'b' :: 'j' :: 'e' :: 'c' :: 't' :: ']' :: [])

def jsToElemJoin : List Json → Str
  | [] => []
  | [x] => jsToElemString x
  | x :: y :: xs => jsToElemString x ++ ',' :: jsToElemJoin (y :: xs)
end

/-- `safeParseJsonArray` from `src/lib/utils.ts`: trim, strip code
fences, try `JSON.parse` of the whole text, then fall back to the greedy
first-bracket-to-last-bracket span; accept only arrays; map elements to
strings. -/
def safeParseJsonArray (text : Str) : Option (List Str) :=
  if jsTrim text = [] then none
  else
    match jsonParse (jsTrim (stripFenceEnd (stripFenceStart (jsTrim text)))) with
    | some (Json.jarr xs) => some (xs.map jsToElemString)
    | _ =>
      match jsSpanMatch (jsTrim (stripFenceEnd (stripFenceStart (jsTrim text)))) with
      | some sp =>
        match jsonParse sp with
        | some (Json.jarr xs) => some (xs.map jsToElemString)
        | _ => none
      | none => none

/-- The "looks translatable" heuristic of the structured-data extractor:
Japanese kana, CJK ideographs, or ASCII letters. -/
def looksTranslatable (s : Str) : Bool :=
  s.any (fun c =>
    (0x3040 ≤ c.toNat ∧ c.toNat ≤ 0x30FF) ∨ (0x4E00 ≤ c.toNat ∧ c.toNat ≤ 0x9FFF) ∨
    ('A' ≤ c ∧ c ≤ 'Z') ∨ ('a' ≤ c ∧ c ≤ 'z'))

mutual
/-- The recursive string walk of the structured-data branch of
`extractTexts`. -/
def jwalkTexts : Json → List Str
  | Json.jstr s => if looksTranslatable s then [s] else []
  | Json.jarr items => jwalkTextsList items
  | Json.jobj fields => jwalkTextsFields fields
  | _ => []

def jwalkTextsList : List Json → List Str
  | [] => []
  | x :: xs => jwalkTexts x ++ jwalkTextsList xs

def jwalkTextsFields : List (Str × Json) → List Str
  | [] => []
  | (_, x) :: xs => jwalkTexts x ++ jwalkTextsFields xs
end

/-- Lookup in a JavaScript object built from an entry list: later entries
overwrite earlier ones. -/
def jsObjGet (obj : List (Str × Str)) (k : Str) : Option Str :=
  (obj.reverse.find? (fun kv => kv.1 == k)).map (fun kv => kv.2)

mutual
/-- The replacement walk of the structured-data branch of `mergeBack`:
replace each string leaf by its translation when the object holds a
non-empty one. -/
def jreplace (obj : List (Str × Str)) : Json → Json
  | Json.jstr s =>
    (match jsObjGet obj s with
     | some t => if t = [] then Json.jstr s else Json.jstr t
     | none => Json.jstr s)
  | Json.jarr items => Json.jarr (jreplaceList obj items)
  | Json.jobj fields => Json.jobj (jreplaceFields obj fields)
  | v => v

def jreplaceList (obj : List (Str × Str)) : List Json → List Json
  | [] => []
  | x :: xs => jreplace obj x :: jreplaceList obj xs

def jreplaceFields (obj : List (Str × Str)) : List (Str × Json) → List (Str × Json)
  | [] => []
  | (k, x) :: xs => (k, jreplace obj x) :: jreplaceFields obj xs
end

def hexDigitChar (n : Nat) : Char :=
  if n < 10 then digitChar n
  else if n = 10 then 'a' else if n = 11 then 'b' else if n = 12 then 'c'
  else if n = 13 then 'd' else if n = 14 then 'e' else 'f'

/-- JSON string-literal escaping, as `JSON.stringify` produces it. -/
def jescape : Str → Str
  | [] => []
  | c :: r =>
    (if c = '"' then '\\' :: '"' :: []
     else if c = '\\' then '\\' :: '\\' :: []
     else if c = '\n' then '\\' :: 'n' :: []
     else if c = '\r' then '\\' :: 'r' :: []
     else if c = '\t' then '\\' :: 't' :: []
     else if c = Char.ofNat 8 then '\\' :: 'b' :: []
     else if c = Char.ofNat 12 then '\\' :: 'f' :: []
     else if c.toNat < 32 then
       '\\' :: 'u' :: '0' :: '0' :: hexDigitChar (c.toNat / 16) :: hexDigitChar (c.toNat % 16) :: []
     else [c]) ++ jescape r

def indentSp (n : Nat) : Str := List.replicate n ' '

mutual
/-- `JSON.stringify(v, null, 2)`, as the structured-data branch of
`mergeBack` re-serializes the replaced tree.  Numbers print their source
lexeme (see `Json.jnum`). -/
def jstringify : Json → Nat → Str
  | Json.jnull, _ => 'n' :: 'u' :: 'l' :: 'l' :: []
  | Json.jbool true, _ => 't' :: 'r' :: 'u' :: 'e' :: []
  | Json.jbool false, _ => 'f' :: 'a' :: 'l' :: 's' :: 'e' :: []
  | Json.jnum lex, _ => lex
  | Json.jstr s, _ => '"' :: jescape s ++ '"' :: []
  | Json.jarr [], _ => '[' :: ']' :: []
  | Json.jarr (x :: xs), ind =>
    '[' :: '\n' :: jstringifyItems (x :: xs) (ind + 2) ++ '\n' :: indentSp ind ++ ']' :: []
  | Json.jobj [], _ => '{' :: '}' :: []
  | Json.jobj (f :: fs), ind =>
    '{' :: '\n' :: jstringifyFields (f :: fs) (ind + 2) ++ '\n' :: indentSp ind ++ '}' :: []

def jstringifyItems : List Json → Nat → Str
  | [], _ => []
  | [x], ind => indentSp ind ++ jstringify x ind
  | x :: y :: xs, ind =>
    indentSp ind ++ jstringify x ind ++ ',' :: '\n' :: jstringifyItems (y :: xs) ind

def jstringifyFields : List (Str × Json) → Nat → Str
  | [], _ => []
  | [(k, x)], ind => indentSp ind ++ '"' :: jescape k ++ '"' :: ':' :: ' ' :: jstringify x ind
  | (k, x) :: g :: fs, ind =>
    indentSp ind ++ '"' :: jescape k ++ '"' :: ':' :: ' ' :: jstringify x ind
      ++ ',' :: '\n' :: jstringifyFields (g :: fs) ind
end

/-! ### The legacy extractor and merger (`extractTexts` / `mergeBack`) -/

/-- Error cases of `extractTexts` / `mergeBack`: the constant-message
`Error("Unsupported file type.")`, or a `SyntaxError` escaping from
`JSON.parse` (whose message text is engine-specific and not modelled). -/
inductive ExtractErr where
  | unsupportedFileType
  | jsonSyntax
deriving DecidableEq

deriving instance DecidableEq for Except

/-- Message of the unsupported-format error thrown by `extractTexts` and
`mergeBack`; it does not mention the offending extension. -/
def extractErrMessage : ExtractErr → Option Str
  | ExtractErr.unsupportedFileType =>
    some ('U' :: 'n' :: 's' :: 'u' :: 'p' :: 'p' :: 'o' :: 'r' :: 't' :: 'e' :: 'd' :: ' '
      :: 'f' :: 'i' :: 'l' :: 'e' :: ' ' :: 't' :: 'y' :: 'p' :: 'e' :: '.' :: [])
  | ExtractErr.jsonSyntax => none

/-- The quoted-literal matches of the script branch: the regex
`"([^"]+)"` applied globally, with the surrounding quotes stripped. -/
def extractGo : Nat → Str → List Str
  | 0, _ => []
  | _ + 1, [] => []
  | fuel + 1, x :: rest =>
    if x = '"' then
      match bracketSplit '"' rest with
      | some (run, r') => run :: extractGo fuel r'
      | none => extractGo fuel rest
    else extractGo fuel rest

def rpyQuotes (raw : Str) : List Str := extractGo raw.length raw

def jsonExt : Str := '.' :: 'j' :: 's' :: 'o' :: 'n' :: []

def rpyExt : Str := '.' :: 'r' :: 'p' :: 'y' :: []

/-- `extractTexts` from `translator.js`, with the file's extension passed
directly (the original reads the file and takes `path.extname`). -/
def extractTexts (ext raw : Str) : Except ExtractErr (List Str) :=
  if ext = jsonExt then
    match jsonParse raw with
    | some v => Except.ok (jwalkTexts v)
    | none => Except.error ExtractErr.jsonSyntax
  else if ext = rpyExt then Except.ok (rpyQuotes raw)
  else Except.error ExtractErr.unsupportedFileType

/-- The `.rpy` branch of `mergeBack`: for each object entry with a truthy
translation, globally replace the quoted original by the quoted
translation; the regex is escaped (a literal) but the replacement is a
raw template. -/
def mergeRpyEntries (entries : List (Str × Str)) (raw : Str) : Str :=
  entries.foldl
    (fun acc kv =>
      if kv.2 = [] then acc
      else replaceAllJS ('"' :: kv.1 ++ ['"']) ('"' :: kv.2 ++ ['"']) acc)
    raw

/-- `mergeBack` from `translator.js`.  The translated object is passed as
its entry list. -/
def mergeBack (ext raw : Str) (translatedObj : List (Str × Str)) : Except ExtractErr Str :=
  if ext = jsonExt then
    match jsonParse raw with
    | some v => Except.ok (jstringify (jreplace translatedObj v) 0)
    | none => Except.error ExtractErr.jsonSyntax
  else if ext = rpyExt then Except.ok (mergeRpyEntries translatedObj raw)
  else Except.error ExtractErr.unsupportedFileType

/-! ### Claim C1 — merge round-trip identity -/

/-- C1 (counterexample): the round-trip identity fails byte-for-byte on
the legacy merger.  For the script `say "a$&b"`, the extractor yields the
single quote `a$&b`; merging with the identity translation corrupts the
line, because `mergeBack` uses the translation as a raw JavaScript
replacement template, in which `$&` re-inserts the matched text. -/
theorem C1_merge_roundtrip_cex :
    extractTexts rpyExt ("say \"a$&b\"".data) = Except.ok ["a$&b".data] ∧
    mergeBack rpyExt ("say \"a$&b\"".data) [("a$&b".data, "a$&b".data)]
      ≠ Except.ok ("say \"a$&b\"".data) := by
  constructor
  · decide
  · decide

/-- C1 (amended): for a `.rpy` source none of whose extracted quotes
contains a dollar sign, merging with every item's translation set to its
original quote reproduces the source byte-for-byte.  (The `.json` branch
re-serializes the tree and is not byte-identical; the `$` restriction is
forced by the replacement-template expansion.) -/
theorem C1_merge_roundtrip (raw : Str)
    (hq : ∀ q ∈ rpyQuotes raw, ∀ c ∈ q, c ≠ '$') :
    mergeBack rpyExt raw ((rpyQuotes raw).map (fun q => (q, q))) = Except.ok raw := by
  unfold mergeBack
  rw [if_neg (by decide), if_pos rfl]
  have main : ∀ (qs : List Str), (∀ q ∈ qs, ∀ c ∈ q, c ≠ '$') → ∀ (acc : Str),
      mergeRpyEntries (qs.map (fun q => (q, q))) acc = acc := by
    intro qs
    induction qs with
    | nil => intro _ acc; rfl
    | cons q qs' ih =>
      intro h acc
      have hq' : ∀ c ∈ q, c ≠ '$' := h q (List.mem_cons_self q qs')
      have hstep : mergeRpyEntries ((q :: qs').map (fun q => (q, q))) acc
          = mergeRpyEntries (qs'.map (fun q => (q, q)))
              (if q = [] then acc
               else replaceAllJS ('"' :: q ++ ['"']) ('"' :: q ++ ['"']) acc) := rfl
      rw [hstep]
      have hflat : (if q = [] then acc
          else replaceAllJS ('"' :: q ++ ['"']) ('"' :: q ++ ['"']) acc) = acc := by
        split
        · rfl
        · unfold replaceAllJS
          rw [if_neg (by simp)]
          refine replAux_self (by simp) ?_ acc.length acc (le_refl _) []
          intro c hc
          rcases List.mem_cons.mp hc with rfl | hc
          · decide
          · rcases List.mem_append.mp hc with hc | hc
            · exact hq' c hc
            · simp at hc; subst hc; decide
      rw [hflat]
      exact ih (fun x hx => h x (List.mem_cons_of_mem q hx)) acc
  rw [main (rpyQuotes raw) hq raw]

/-- C1 (witness): concrete instance of the amended round trip. -/
theorem C1_merge_roundtrip_witness :
    mergeBack rpyExt ("e \"hi\" x \"yo\"".data)
      ((rpyQuotes ("e \"hi\" x \"yo\"".data)).map (fun q => (q, q)))
      = Except.ok ("e \"hi\" x \"yo\"".data) :=
  C1_merge_roundtrip _ (by decide)

/-! ### Claim C2 — masking round trip and syntax-freeness -/

/-- C2 (counterexample): both halves of the masking claim fail as stated.
For `[a]x{b}TAG_0__`, unmasking the masked text with its placeholder map
does not reproduce the input (the global key replacement of
`restoreTags` also fires on the span formed by the second placeholder's
trailing underscores and the literal text `TAG_0__`).  And the masked
text of `%(a{)}b)s` still contains raw control-tag syntax: masking
removes the brace tag `{)}` and thereby fuses `%(a…b)s` into a
percent-interpolation match. -/
theorem C2_masking_roundtrip_cex :
    restoreTags (protectTags ("[a]x{b}TAG_0__".data)).1
        (protectTags ("[a]x{b}TAG_0__".data)).2 ≠ "[a]x{b}TAG_0__".data ∧
    (protectTags ((protectTags ("%(a{)}b)s".data)).1)).2 ≠ [] := by
  constructor
  · decide
  · decide

/-- C2 (amended): for input containing no underscore (so that natural
text cannot collide with the reserved `__TAG_i__` placeholder alphabet)
and no dollar sign (so that the replacement-template expansion of
`restoreTags` is literal), unmasking the masked text with the produced
placeholder map reproduces the input exactly; and for input containing
no percent sign, the masked text contains zero raw control-tag syntax —
masking it again is the identity and finds no further match.  (Percent
interpolations can survive masking, as the counterexample shows.) -/
theorem C2_masking_roundtrip (t : Str) :
    ((∀ c ∈ t, c ≠ '_') → (∀ c ∈ t, c ≠ '$') →
      restoreTags (protectTags t).1 (protectTags t).2 = t) ∧
    ('%' ∉ t → protectTags (protectTags t).1 = ((protectTags t).1, [])) := by
  constructor
  · intro h1 h2
    exact maskGo_roundTrip t.length (le_refl _) h1 h2 0
  · intro hp
    exact Benign_scan (maskGo_benign t.length (le_refl _) hp 0) _ (le_refl _) 0

/-- C2 (witness): concrete instances of both amended conjuncts. -/
theorem C2_masking_roundtrip_witness :
    restoreTags (protectTags ("Hello [player]!".data)).1
        (protectTags ("Hello [player]!".data)).2 = "Hello [player]!".data ∧
    protectTags ((protectTags ("a[x]b".data)).1)
      = (((protectTags ("a[x]b".data)).1), []) :=
  ⟨(C2_masking_roundtrip _).1 (by decide) (by decide),
    (C2_masking_roundtrip _).2 (by decide)⟩

/-! ### Claim C7 — lenient LLM response parsing -/

theorem dropWhile_suffix_eq {p : Char → Bool} : ∀ {l : Str},
    (l.dropWhile p).length = l.length → l.dropWhile p = l := by
  intro l
  induction l with
  | nil => intro _; rfl
  | cons c r ih =>
    intro h
    by_cases hc : p c = true
    · rw [List.dropWhile_cons, if_pos hc] at h ⊢
      have hle : (r.dropWhile p).length ≤ r.length := by
        have : r.dropWhile p <:+ r := List.dropWhile_suffix p
        exact List.IsSuffix.length_le this
      simp at h
      omega
    · rw [List.dropWhile_cons, if_neg (by simp [hc])]

theorem jsTrim_id {t : Str} (h1 : ∀ c, t.head? = some c → jsWs c = false)
    (h2 : ∀ c, t.getLast? = some c → jsWs c = false) : jsTrim t = t := by
  cases t with
  | nil => rfl
  | cons x u =>
    have hx : jsWs x = false := h1 x rfl
    unfold jsTrim
    rw [List.dropWhile_cons, if_neg (by simp [hx])]
    cases hr : (x :: u).reverse with
    | nil => exact absurd (congrArg List.length hr) (by simp)
    | cons z w' =>
      have hz : jsWs z = false := by
        apply h2 z
        rw [← List.head?_reverse, hr]
        rfl
      rw [List.dropWhile_cons, if_neg (by simp [hz]), ← hr, List.reverse_reverse]

theorem stripFenceEnd_append (y : Str) : stripFenceEnd (y ++ fence3) = y := by
  unfold stripFenceEnd
  have hrev : (y ++ fence3).reverse = fence3 ++ y.reverse := by
    rw [List.reverse_append]
    rfl
  rw [hrev, if_pos (leadsWith_self fence3 y.reverse)]
  have : fence3 ++ y.reverse = fence3 ++ y.reverse := rfl
  rw [show (3 : Nat) = fence3.length from rfl, List.drop_left, List.reverse_reverse]

/-- C7 (counterexample): the parser does not extract "the first
well-formed JSON array found in the text".  The text `["a"] x ["b"]`
contains the well-formed array `["a"]` as a substring (and that
substring alone parses), yet `safeParseJsonArray` returns `null`: its
fallback regex is greedy, spanning from the first `[` to the last `]`,
and that whole span is not valid JSON. -/
theorem C7_parse_cex :
    occursIn ("[\"a\"]".data) ("[\"a\"] x [\"b\"]".data) = true ∧
    safeParseJsonArray ("[\"a\"]".data) = some ["a".data] ∧
    safeParseJsonArray ("[\"a\"] x [\"b\"]".data) = none := by
  refine ⟨by decide, by decide, by decide⟩

/-- C7 (amended): the parser tolerates code-fence wrapping — for any text
whose body parses as a JSON array, the fenced form parses to that
array's elements mapped to strings — and, when direct parsing of the
unwrapped text fails, it parses the greedy span from the first `[` to
the last `]` (not the first well-formed array). -/
theorem C7_parse_lenient :
    (∀ (A : Str) (elems : List Json), A.head? = some '[' → A.getLast? = some ']' →
        jsonParse A = some (Json.jarr elems) →
        safeParseJsonArray (fence3 ++ ('j' :: 's' :: 'o' :: 'n' :: '\n' :: (A ++ '\n' :: fence3)))
          = some (elems.map jsToElemString)) ∧
    (∀ (T sp : Str) (elems : List Json), jsTrim T ≠ [] →
        jsonParse (jsTrim (stripFenceEnd (stripFenceStart (jsTrim T)))) = none →
        jsSpanMatch (jsTrim (stripFenceEnd (stripFenceStart (jsTrim T)))) = some sp →
        jsonParse sp = some (Json.jarr elems) →
        safeParseJsonArray T = some (elems.map jsToElemString)) := by
  constructor
  · intro A elems hA1 hA2 hparse
    obtain ⟨a0, A1, rfl⟩ : ∃ a0 A1, A = a0 :: A1 := by
      cases A with
      | nil => simp at hA1
      | cons a0 A1 => exact ⟨a0, A1, rfl⟩
    have ha0 : a0 = '[' := by simpa using hA1
    set w : Str := fence3 ++ ('j' :: 's' :: 'o' :: 'n' :: '\n' :: ((a0 :: A1) ++ '\n' :: fence3)) with hw
    have htrim : jsTrim w = w := by
      apply jsTrim_id
      · intro c hc
        rw [hw] at hc
        simp [fence3] at hc
        subst hc
        decide
      · intro c hc
        rw [hw] at hc
        have : w.getLast? = some btickC := by
          rw [hw]
          have : fence3 ++ ('j' :: 's' :: 'o' :: 'n' :: '\n' :: ((a0 :: A1) ++ '\n' :: fence3))
              = (fence3 ++ ('j' :: 's' :: 'o' :: 'n' :: '\n' :: ((a0 :: A1) ++ ['\n', btickC, btickC]))) ++ [btickC] := by
            simp [fence3]
          rw [this, List.getLast?_append]
          rfl
        rw [hw] at this
        rw [hc] at this
        injection this with h
        subst h
        decide
    unfold safeParseJsonArray
    rw [htrim]
    rw [if_neg (by rw [hw]; simp [fence3])]
    have hstart : stripFenceStart w = '\n' :: ((a0 :: A1) ++ '\n' :: fence3) := by
      unfold stripFenceStart
      rw [hw]
      rw [if_pos (leadsWith_self fence3 _)]
      have hdrop3 : (fence3 ++ ('j' :: 's' :: 'o' :: 'n' :: '\n' :: ((a0 :: A1) ++ '\n' :: fence3))).drop 3
          = 'j' :: 's' :: 'o' :: 'n' :: '\n' :: ((a0 :: A1) ++ '\n' :: fence3) := by
        rw [show (3 : Nat) = fence3.length from rfl, List.drop_left]
      rw [hdrop3]
      rw [if_pos (show jsLower (List.take 4 ('j' :: 's' :: 'o' :: 'n' :: '\n' :: ((a0 :: A1) ++ '\n' :: fence3))) = 'j' :: 's' :: 'o' :: 'n' :: [] from rfl)]
      rfl
    rw [hstart]
    have hend : stripFenceEnd ('\n' :: ((a0 :: A1) ++ '\n' :: fence3))
        = '\n' :: ((a0 :: A1) ++ ['\n']) := by
      have hsh : '\n' :: ((a0 :: A1) ++ '\n' :: fence3)
          = ('\n' :: ((a0 :: A1) ++ ['\n'])) ++ fence3 := by simp
      rw [hsh, stripFenceEnd_append]
    rw [hend]
    have htrim2 : jsTrim ('\n' :: ((a0 :: A1) ++ ['\n'])) = a0 :: A1 := by
      unfold jsTrim
      rw [List.dropWhile_cons, if_pos (by decide)]
      rw [List.cons_append, List.dropWhile_cons]
      rw [if_neg (by rw [ha0]; decide)]
      have hrev : (a0 :: (A1 ++ ['\n'])).reverse = '\n' :: (a0 :: A1).reverse := by
        simp
      rw [hrev, List.dropWhile_cons, if_pos (by decide)]
      cases hr : (a0 :: A1).reverse with
      | nil => exact absurd (congrArg List.length hr) (by simp)
      | cons z w' =>
        have hz : z = ']' := by
          have := hA2
          rw [← List.head?_reverse, hr] at this
          simpa using this
        rw [List.dropWhile_cons, if_neg (by rw [hz]; decide), ← hr, List.reverse_reverse]
    rw [htrim2, hparse]
  · intro T sp elems h1 h2 h3 h4
    unfold safeParseJsonArray
    rw [if_neg h1, h2]
    simp only [h3, h4]

/-- C7 (witness): concrete instances of both conjuncts. -/
theorem C7_parse_lenient_witness :
    safeParseJsonArray (fence3 ++ ('j' :: 's' :: 'o' :: 'n' :: '\n' :: (("[\"x\"]".data) ++ '\n' :: fence3)))
      = some ["x".data] ∧
    safeParseJsonArray ("noise [\"a\"] tail".data) = some ["a".data] := by
  constructor
  · exact C7_parse_lenient.1 ("[\"x\"]".data) [Json.jstr ['x']] (by decide) (by decide) (by rfl)
  · exact C7_parse_lenient.2 ("noise [\"a\"] tail".data) ("[\"a\"]".data) [Json.jstr ['a']]
      (by decide) (by rfl) (by rfl) (by rfl)

/-! ### The legacy pipeline driver (`translateFile`) -/

/-- JavaScript `split("\n")`. -/
def splitNl : Str → List Str
  | [] => [[]]
  | '\n' :: r => [] :: splitNl r
  | c :: r =>
    match splitNl r with
    | h :: rest => (c :: h) :: rest
    | [] => [[c]]

/-- Join with newlines (`join("\n")`). -/
def joinNl : List Str → Str
  | [] => []
  | [x] => x
  | x :: y :: xs => x ++ '\n' :: joinNl (y :: xs)

/-- Run-level errors of the legacy driver: a propagated extraction error,
or exhaustion of the modelling fuel (the real retry loop can spin
forever, sleeping five seconds between attempts). -/
inductive TransErr where
  | extractErr (e : ExtractErr)
  | fuelOut
deriving DecidableEq

/-- The batch loop of `translateFile`: slice 100 lines, protect tags,
join with newlines, call the provider (`translateGoogle`, modelled by
`oracle`, a function of the call counter and the joined payload); on
provider failure retry the same page; on success split the response,
truncate to the slice length, restore tags, and pad missing lines with
the empty string.  Returns the accumulated translation object and the
number of provider calls made. -/
def translateFileGo (oracle : Nat → Str → Except Unit Str) (arr : List Str) :
    Nat → Nat → Nat → List (Str × Str) → Except TransErr (List (Str × Str)) × Nat
  | 0, _, calls, _ => (Except.error TransErr.fuelOut, calls)
  | fuel + 1, page, calls, result =>
    if arr.length ≤ page * 100 then (Except.ok result, calls)
    else
      match oracle calls (joinNl (((arr.drop (page * 100)).take 100).map (fun t => (protectTags t).1))) with
      | Except.error _ => translateFileGo oracle arr fuel page (calls + 1) result
      | Except.ok translated =>
        translateFileGo oracle arr fuel (page + 1) (calls + 1)
          (result ++
            (List.range ((arr.drop (page * 100)).take 100).length).map (fun i =>
              (((arr.drop (page * 100)).take 100).getD i [],
                (List.zipWith (fun t pb => restoreTags t pb)
                    ((splitNl translated).take ((arr.drop (page * 100)).take 100).length)
                    (((arr.drop (page * 100)).take 100).map (fun t => (protectTags t).2))).getD i [])))

/-- `translateFile` from `translator.js`, with the filesystem stripped:
extraction happens once, before the provider loop; an extraction error
ends the run with zero provider calls. -/
def translateFile (oracle : Nat → Str → Except Unit Str) (fuel : Nat) (ext raw : Str) :
    Except TransErr (List (Str × Str)) × Nat :=
  match extractTexts ext raw with
  | Except.error e => (Except.error (TransErr.extractErr e), 0)
  | Except.ok arr => translateFileGo oracle arr fuel 0 0 []

/-! ### Claim C8 — extraction failure on unsupported formats -/

/-- C8 (counterexample): for the unsupported extension `.txt`, extraction
does raise an error, but its message is the constant
`Unsupported file type.` — it does not name the offending format. -/
theorem C8_extract_unsupported_cex :
    extractTexts (".txt".data) ("hello".data) = Except.error ExtractErr.unsupportedFileType ∧
    occursIn (".txt".data)
      ((extractErrMessage ExtractErr.unsupportedFileType).getD []) = false := by
  constructor
  · decide
  · decide

/-- C8 (amended): for every extension other than `.json` and `.rpy`,
extraction raises the unsupported-file-type error, whose message is the
fixed string `Unsupported file type.` (naming no format); the failure is
fatal for the file — `translateFile` propagates it with zero provider
calls, so it is never retried. -/
theorem C8_extract_unsupported (ext raw : Str)
    (h1 : ext ≠ jsonExt) (h2 : ext ≠ rpyExt) :
    extractTexts ext raw = Except.error ExtractErr.unsupportedFileType ∧
    extractErrMessage ExtractErr.unsupportedFileType = some ("Unsupported file type.".data) ∧
    (∀ (oracle : Nat → Str → Except Unit Str) (fuel : Nat),
      translateFile oracle fuel ext raw
        = (Except.error (TransErr.extractErr ExtractErr.unsupportedFileType), 0)) := by
  have hext : extractTexts ext raw = Except.error ExtractErr.unsupportedFileType := by
    unfold extractTexts
    rw [if_neg h1, if_neg h2]
  refine ⟨hext, by decide, ?_⟩
  intro oracle fuel
  unfold translateFile
  rw [hext]

/-- C8 (witness): concrete instance. -/
theorem C8_extract_unsupported_witness :
    extractTexts (".txt".data) ("zz".data) = Except.error ExtractErr.unsupportedFileType ∧
    extractErrMessage ExtractErr.unsupportedFileType = some ("Unsupported file type.".data) ∧
    (∀ (oracle : Nat → Str → Except Unit Str) (fuel : Nat),
      translateFile oracle fuel (".txt".data) ("zz".data)
        = (Except.error (TransErr.extractErr ExtractErr.unsupportedFileType), 0)) :=
  C8_extract_unsupported (".txt".data) ("zz".data) (by decide) (by decide)

/-! ### The retry combinator (`withRetry` from `src/lib/utils.ts`) -/

/-- Outcome of a `withRetry` run: a value, the error of the last attempt
(thrown after exhausting the attempts), or the `AbortError` raised when
the cancellation signal fires (at the loop head or during the backoff
sleep). -/
inductive RetryResult (ε α : Type) where
  | ok (a : α)
  | failed (e : ε)
  | aborted
deriving DecidableEq

/-- Loop of `withRetry`.  `fn` is the wrapped operation per attempt
index; `aborted k` is the signal state checked at the head of attempt
`k`; `sleepAborted k` the signal firing during the backoff sleep after
attempt `k`; `jitter k` models `Math.random() * 250`.  Returns the
outcome, the number of `fn` invocations, and the list of computed
backoff delays.  The fuel equals the remaining attempts and never runs
out when started at `retries + 1`. -/
def withRetryGo {ε α : Type} (fn : Nat → Except ε α) (aborted sleepAborted : Nat → Bool)
    (jitter : Nat → Nat) (retries baseMs maxMs : Nat) :
    Nat → Nat → RetryResult ε α × Nat × List Nat
  | 0, _ => (RetryResult.aborted, 0, [])
  | fuel + 1, attempt =>
    if aborted attempt then (RetryResult.aborted, 0, [])
    else
      match fn attempt with
      | Except.ok a => (RetryResult.ok a, 1, [])
      | Except.error e =>
        if retries ≤ attempt then (RetryResult.failed e, 1, [])
        else
          if sleepAborted attempt then
            (RetryResult.aborted, 1, [min maxMs (baseMs * 2 ^ attempt + jitter attempt)])
          else
            ((withRetryGo fn aborted sleepAborted jitter retries baseMs maxMs fuel (attempt + 1)).1,
              (withRetryGo fn aborted sleepAborted jitter retries baseMs maxMs fuel (attempt + 1)).2.1 + 1,
              min maxMs (baseMs * 2 ^ attempt + jitter attempt)
                :: (withRetryGo fn aborted sleepAborted jitter retries baseMs maxMs fuel (attempt + 1)).2.2)

/-- `withRetry` from `src/lib/utils.ts` (the `onRetry` logging callback,
a pure side effect, is not modelled). -/
def withRetry {ε α : Type} (fn : Nat → Except ε α) (aborted sleepAborted : Nat → Bool)
    (jitter : Nat → Nat) (retries baseMs maxMs : Nat) : RetryResult ε α × Nat × List Nat :=
  withRetryGo fn aborted sleepAborted jitter retries baseMs maxMs (retries + 1) 0

theorem withRetryGo_calls {ε α : Type} (fn : Nat → Except ε α)
    (aborted sleepAborted : Nat → Bool) (jitter : Nat → Nat) (retries baseMs maxMs : Nat) :
    ∀ (fuel attempt : Nat),
      (withRetryGo fn aborted sleepAborted jitter retries baseMs maxMs fuel attempt).2.1 ≤ fuel := by
  intro fuel
  induction fuel with
  | zero => intro attempt; simp [withRetryGo]
  | succ f ih =>
    intro attempt
    simp only [withRetryGo]
    by_cases ha : aborted attempt = true
    · rw [if_pos ha]; simp
    · rw [if_neg ha]
      cases fn attempt with
      | ok a => simp
      | error e =>
        dsimp only
        by_cases hr : retries ≤ attempt
        · rw [if_pos hr]; simp
        · rw [if_neg hr]
          by_cases hs : sleepAborted attempt = true
          · rw [if_pos hs]; simp
          · rw [if_neg hs]
            have := ih (attempt + 1)
            dsimp only
            omega

theorem withRetryGo_waits {ε α : Type} (fn : Nat → Except ε α)
    (aborted sleepAborted : Nat → Bool) (jitter : Nat → Nat) (retries baseMs maxMs : Nat) :
    ∀ (fuel attempt i : Nat) (w : Nat),
      (withRetryGo fn aborted sleepAborted jitter retries baseMs maxMs fuel attempt).2.2.get? i = some w →
      w = min maxMs (baseMs * 2 ^ (attempt + i) + jitter (attempt + i)) := by
  intro fuel
  induction fuel with
  | zero => intro attempt i w h; simp [withRetryGo] at h
  | succ f ih =>
    intro attempt i w h
    simp only [withRetryGo] at h
    by_cases ha : aborted attempt = true
    · rw [if_pos ha] at h; simp at h
    · rw [if_neg ha] at h
      cases hfc : fn attempt with
      | ok a => rw [hfc] at h; simp at h
      | error e =>
        rw [hfc] at h
        dsimp only at h
        by_cases hr : retries ≤ attempt
        · rw [if_pos hr] at h; simp at h
        · rw [if_neg hr] at h
          by_cases hs : sleepAborted attempt = true
          · rw [if_pos hs] at h
            cases i with
            | zero =>
              simp at h
              simp [← h]
            | succ i' => simp at h
          · rw [if_neg hs] at h
            cases i with
            | zero =>
              simp at h
              simp [← h]
            | succ i' =>
              simp only [List.get?_cons_succ] at h
              have := ih (attempt + 1) i' w h
              rw [this]
              have harith : attempt + 1 + i' = attempt + (i' + 1) := by omega
              rw [harith]

theorem withRetryGo_exhaust {ε α : Type} (fn : Nat → Except ε α)
    (aborted sleepAborted : Nat → Bool) (jitter : Nat → Nat) (retries baseMs maxMs : Nat)
    (es : Nat → ε) (hfn : ∀ k, fn k = Except.error (es k))
    (hab : ∀ k, aborted k = false) (hsl : ∀ k, sleepAborted k = false) :
    ∀ (fuel attempt : Nat), attempt + fuel = retries + 1 → 1 ≤ fuel →
      (withRetryGo fn aborted sleepAborted jitter retries baseMs maxMs fuel attempt).1
          = RetryResult.failed (es retries) ∧
      (withRetryGo fn aborted sleepAborted jitter retries baseMs maxMs fuel attempt).2.1 = fuel := by
  intro fuel
  induction fuel with
  | zero => intro attempt h hf; omega
  | succ f ih =>
    intro attempt h _
    simp only [withRetryGo]
    rw [if_neg (by simp [hab attempt]), hfn attempt]
    dsimp only
    by_cases hr : retries ≤ attempt
    · have : attempt = retries := by omega
      subst this
      have : f = 0 := by omega
      subst this
      rw [if_pos hr]
      exact ⟨rfl, rfl⟩
    · rw [if_neg hr, if_neg (by simp [hsl attempt])]
      have := ih (attempt + 1) (by omega) (by omega)
      exact ⟨this.1, by simp [this.2]⟩

/-! ### Claim C5 — the retry combinator -/

/-- C5: `withRetry` invokes `fn` at most `retries + 1` times; every
computed backoff delay before retry attempt `k+1` equals
`min(maxMs, baseMs * 2^k + jitter k)` with `jitter` the random term; if
the signal is already aborted it stops immediately with an abort result
and zero invocations; and when every attempt fails (and no abort fires)
it ends with the error of the last attempt after exactly `retries + 1`
invocations. -/
theorem C5_retry_combinator {ε α : Type} (fn : Nat → Except ε α)
    (aborted sleepAborted : Nat → Bool) (jitter : Nat → Nat) (retries baseMs maxMs : Nat) :
    (withRetry fn aborted sleepAborted jitter retries baseMs maxMs).2.1 ≤ retries + 1 ∧
    (∀ (i w : Nat),
      (withRetry fn aborted sleepAborted jitter retries baseMs maxMs).2.2.get? i = some w →
      w = min maxMs (baseMs * 2 ^ i + jitter i)) ∧
    (aborted 0 = true →
      withRetry fn aborted sleepAborted jitter retries baseMs maxMs
        = (RetryResult.aborted, 0, [])) ∧
    (∀ (es : Nat → ε), (∀ k, fn k = Except.error (es k)) → (∀ k, aborted k = false) →
      (∀ k, sleepAborted k = false) →
      (withRetry fn aborted sleepAborted jitter retries baseMs maxMs).1
          = RetryResult.failed (es retries) ∧
      (withRetry fn aborted sleepAborted jitter retries baseMs maxMs).2.1 = retries + 1) := by
  refine ⟨withRetryGo_calls fn aborted sleepAborted jitter retries baseMs maxMs (retries + 1) 0,
    ?_, ?_, ?_⟩
  · intro i w h
    have := withRetryGo_waits fn aborted sleepAborted jitter retries baseMs maxMs
      (retries + 1) 0 i w h
    simpa using this
  · intro h0
    unfold withRetry
    simp only [withRetryGo]
    rw [if_pos h0]
  · intro es hfn hab hsl
    exact withRetryGo_exhaust fn aborted sleepAborted jitter retries baseMs maxMs
      es hfn hab hsl (retries + 1) 0 (by omega) (by omega)

/-- C5 (witness): concrete instances — always-failing attempts with
`retries = 2`, and an immediately aborted signal. -/
theorem C5_retry_combinator_witness :
    ((withRetry (fun _ => Except.error 7) (fun _ => false) (fun _ => false)
        (fun _ => 5) 2 100 1000 : RetryResult Nat Nat × Nat × List Nat).1
      = RetryResult.failed 7 ∧
     (withRetry (fun _ => Except.error 7) (fun _ => false) (fun _ => false)
        (fun _ => 5) 2 100 1000 : RetryResult Nat Nat × Nat × List Nat).2.1 = 3) ∧
    (withRetry (fun _ => Except.error 7) (fun _ => true) (fun _ => false)
        (fun _ => 5) 2 100 1000 : RetryResult Nat Nat × Nat × List Nat)
      = (RetryResult.aborted, 0, []) :=
  ⟨(C5_retry_combinator (fun _ => Except.error 7) (fun _ => false) (fun _ => false)
      (fun _ => 5) 2 100 1000).2.2.2 (fun _ => 7) (fun _ => rfl) (fun _ => rfl) (fun _ => rfl),
   (C5_retry_combinator (fun _ => Except.error 7) (fun _ => true) (fun _ => false)
      (fun _ => 5) 2 100 1000).2.2.1 rfl⟩

/-! ### Dialogue items and the language table -/

/-- The fields of a `DialogItem` that the modelled operations read.
Positional fields (`lineIndex`, `contentStart`, `contentEnd`,
`quoteChar`, `isTriple`, `updatedAt`) are omitted: no claim-relevant
operation in scope consults them. -/
structure DialogItem where
  id : Str
  idx : Nat
  quote : Str
  maskedQuote : Str
  placeholderMap : List (Str × Str)
  cacheKey : Str
  translated : Option Str
deriving DecidableEq

/-- JavaScript `a || b` on strings: `b` when `a` is empty. -/
def firstTruthy (a b : Str) : Str := if a = [] then b else a

/-- `d.maskedQuote || d.quote || ''`, the line the adapters submit. -/
def srcLine (d : DialogItem) : Str := firstTruthy d.maskedQuote (firstTruthy d.quote [])

/-- One entry of the language table of `src/lib/languages.ts`. -/
structure Lang where
  code : Str
  name : Str
  deepl : Option Str

/-- `LANGUAGES` from `src/lib/languages.ts`. -/
def LANGUAGES : List Lang := [
  ⟨"en".data, "English".data, some ("EN".data)⟩,
  ⟨"zh".data, "Chinese (Simplified)".data, some ("ZH".data)⟩,
  ⟨"hi".data, "Hindi".data, none⟩,
  ⟨"es".data, "Spanish".data, some ("ES".data)⟩,
  ⟨"fr".data, "French".data, some ("FR".data)⟩,
  ⟨"ar".data, "Arabic".data, none⟩,
  ⟨"pt".data, "Portuguese".data, some ("PT-PT".data)⟩,
  ⟨"ru".data, "Russian".data, none⟩,
  ⟨"de".data, "German".data, some ("DE".data)⟩,
  ⟨"ja".data, "Japanese".data, some ("JA".data)⟩,
  ⟨"id".data, "Indonesian".data, none⟩,
  ⟨"ms".data, "Malay".data, none⟩,
  ⟨"vi".data, "Vietnamese".data, none⟩,
  ⟨"tl".data, "Filipino".data, none⟩,
  ⟨"ko".data, "Korean".data, some ("KO".data)⟩]

/-- `languageLabel` from `src/lib/languages.ts`. -/
def languageLabel (code : Str) : Str :=
  match LANGUAGES.find? (fun x => jsLower x.code == jsLower (jsTrim code)) with
  | some x => firstTruthy x.name code
  | none => code

/-- `getDeepLLangCode`: the DeepL code of a target language, or the
error thrown when the table has no DeepL mapping for it. -/
def getDeepLLangCode (code : Str) : Except Str Str :=
  match LANGUAGES.find? (fun x => jsLower x.code == jsLower (jsTrim code)) with
  | some x =>
    (match x.deepl with
     | some v =>
       if v = [] then
         Except.error ("DeepL does not support target language: ".data
            ++ (languageLabel code ++ ['.']))
       else Except.ok v
     | none =>
       Except.error ("DeepL does not support target language: ".data
          ++ (languageLabel code ++ ['.'])))
  | none =>
    Except.error ("DeepL does not support target language: ".data
       ++ (languageLabel code ++ ['.']))

/-- `isDeepLSupportedTarget` from `src/lib/languages.ts`. -/
def isDeepLSupportedTarget (code : Str) : Bool :=
  match LANGUAGES.find? (fun x => jsLower x.code == jsLower (jsTrim code)) with
  | some x =>
    (match x.deepl with
     | some v => v ≠ []
     | none => false)
  | none => false

/-! ### Provider adapters (`src/lib/translate.ts`) -/

/-- A response of the DeepSeek proxy, as `translateBatchDeepSeek` reads
it: HTTP failure, a body without `choices[0].message.content`, or that
content string. -/
inductive ProxyResp where
  | httpErr (status : Nat) (text : Str)
  | noContent
  | content (s : Str)

/-- One attempt of `translateBatchDeepSeek`: check HTTP status, extract
the content, parse it leniently as a JSON array, and enforce the length
contract. -/
def deepSeekRun (n : Nat) (resp : ProxyResp) : Except Str (List Str) :=
  match resp with
  | ProxyResp.httpErr status text =>
    Except.error ("DeepSeek/proxy error ".data ++ decStr status ++ ": ".data ++ text)
  | ProxyResp.noContent => Except.error ("DeepSeek response did not contain any content.".data)
  | ProxyResp.content s =>
    match safeParseJsonArray s with
    | none => Except.error ("DeepSeek output is not a valid JSON array.".data)
    | some arr =>
      if arr.length ≠ n then
        Except.error ("DeepSeek returned ".data ++ decStr arr.length
          ++ " items but expected ".data ++ decStr n ++ ['.'])
      else Except.ok arr

/-- `translateBatchDeepSeek`: the run above under `withRetry` with
`retries = 1`, `baseMs = 700`, `maxMs = 2200`.  The prompt and proxy
request body carry `targetLang`/`apiKey` and the payload; the network is
modelled by the per-attempt response function. -/
def translateBatchDeepSeek (batchDialogs : List DialogItem) (targetLang apiKey : Str)
    (responses : Nat → ProxyResp) (aborted sleepAborted : Nat → Bool) (jitter : Nat → Nat) :
    RetryResult Str (List Str) × Nat × List Nat :=
  withRetry (fun k => deepSeekRun (batchDialogs.map srcLine).length (responses k))
    aborted sleepAborted jitter 1 700 2200

/-- A response of the DeepL proxy: HTTP failure or the `translations`
array, each item's `text` field when it is a string (a body without an
array is modelled by the empty list, as the code coerces it). -/
inductive DeepLResp where
  | httpErr (status : Nat) (text : Str)
  | translations (ts : List (Option Str))

/-- One attempt of `translateBatchDeepL`. -/
def deepLRun (n : Nat) (resp : DeepLResp) : Except Str (List Str) :=
  match resp with
  | DeepLResp.httpErr status text =>
    Except.error ("DeepL/proxy error ".data ++ decStr status ++ ": ".data ++ text)
  | DeepLResp.translations ts =>
    if (ts.map (fun t => t.getD [])).length ≠ n then
      Except.error ("DeepL returned ".data ++ decStr (ts.map (fun t => t.getD [])).length
        ++ " items but expected ".data ++ decStr n ++ ['.'])
    else Except.ok (ts.map (fun t => t.getD []))

/-- `translateBatchDeepL`: resolves the DeepL language code *before* any
network interaction — an unsupported target throws here, and the
per-attempt response function is never consulted — then runs the
length-checked request under `withRetry (retries = 1)`. -/
def translateBatchDeepL (batchDialogs : List DialogItem) (targetLang apiKey : Str)
    (responses : Nat → DeepLResp) (aborted sleepAborted : Nat → Bool) (jitter : Nat → Nat) :
    Except Str (RetryResult Str (List Str) × Nat × List Nat) :=
  match getDeepLLangCode targetLang with
  | Except.error m => Except.error m
  | Except.ok _ =>
    Except.ok (withRetry (fun k => deepLRun (batchDialogs.map srcLine).length (responses k))
      aborted sleepAborted jitter 1 700 2200)

/-- A response of one Lingva mirror for one line. -/
inductive LingvaResp where
  | httpErr (status : Nat) (text : Str)
  | missing
  | translation (s : Str)

/-- One attempt of `lingvaTranslateLine`. -/
def lingvaRun (resp : LingvaResp) : Except Str Str :=
  match resp with
  | LingvaResp.httpErr status text =>
    Except.error ("Lingva error ".data ++ decStr status ++ ": ".data ++ text)
  | LingvaResp.missing => Except.error ("Lingva response missing translation field.".data)
  | LingvaResp.translation s => Except.ok s

def LINGVA_BASE_URLS : List Str := [
  "https://lingva.lunar.icu".data,
  "https://lingva.dialectapp.org".data,
  "https://lingva.ml".data,
  "https://lingva.vercel.app".data,
  "https://translate.plausibility.cloud".data,
  "https://lingva.garudalinux.org".data]

/-- The mirror list: the configured base URL (when nonempty after
trimming) followed by the built-in pool minus that URL. -/
def lingvaUrls (baseUrl : Str) : List Str :=
  (if jsTrim baseUrl = [] then [] else [jsTrim baseUrl])
    ++ LINGVA_BASE_URLS.filter (fun u => u ≠ baseUrl)

/-- The per-line loop of `translateBatchLingva`: each line runs under its
own `withRetry` (`retries = min 3 (urls - 1)`, rotating mirrors per
attempt); the first failing line fails the whole batch. -/
def lingvaGo (oracle : Nat → Nat → LingvaResp) (aborted sleepAborted : Nat → Nat → Bool)
    (jitter : Nat → Nat → Nat) (urlCount : Nat) :
    Nat → List Str → RetryResult Str (List Str)
  | _, [] => RetryResult.ok []
  | i, _ :: rest =>
    match (withRetry (fun k => lingvaRun (oracle i k)) (aborted i) (sleepAborted i)
        (jitter i) (min 3 (urlCount - 1)) 400 2000).1 with
    | RetryResult.ok t =>
      (match lingvaGo oracle aborted sleepAborted jitter urlCount (i + 1) rest with
       | RetryResult.ok out => RetryResult.ok (t :: out)
       | RetryResult.failed e => RetryResult.failed e
       | RetryResult.aborted => RetryResult.aborted)
    | RetryResult.failed e => RetryResult.failed e
    | RetryResult.aborted => RetryResult.aborted

/-- `translateBatchLingva`. -/
def translateBatchLingva (batchDialogs : List DialogItem) (sourceLang targetLang baseUrl : Str)
    (oracle : Nat → Nat → LingvaResp) (aborted sleepAborted : Nat → Nat → Bool)
    (jitter : Nat → Nat → Nat) : RetryResult Str (List Str) :=
  lingvaGo oracle aborted sleepAborted jitter (lingvaUrls baseUrl).length 0
    (batchDialogs.map srcLine)

/-- Engine selector of `translateBatch`. -/
inductive EngineKind where
  | deepseek
  | deepl
  | lingva
deriving DecidableEq

/-- Settings slice passed to `translateBatch` by `translateScope`. -/
structure NetSettings where
  sourceLang : Str
  targetLang : Str
  deepseekKey : Str
  deeplKey : Str
  lingvaBaseUrl : Str

/-- The network responses for a run, per engine. -/
structure NetOracle where
  deepseekResp : Nat → ProxyResp
  deeplResp : Nat → DeepLResp
  lingvaResp : Nat → Nat → LingvaResp
  aborted : Nat → Bool
  sleepAborted : Nat → Bool
  lingvaAborted : Nat → Nat → Bool
  lingvaSleepAborted : Nat → Nat → Bool
  jitter : Nat → Nat
  lingvaJitter : Nat → Nat → Nat

/-- `translateBatch` from `src/lib/translate.ts`: credential checks fail
immediately (`Except.error` without consulting the response functions),
then dispatch on the engine. -/
def translateBatch (engine : EngineKind) (batchDialogs : List DialogItem)
    (settings : NetSettings) (net : NetOracle) : Except Str (RetryResult Str (List Str)) :=
  match engine with
  | EngineKind.deepseek =>
    if jsTrim settings.deepseekKey = [] then Except.error ("DeepSeek API key is required.".data)
    else Except.ok (translateBatchDeepSeek batchDialogs settings.targetLang
      (jsTrim settings.deepseekKey) net.deepseekResp net.aborted net.sleepAborted net.jitter).1
  | EngineKind.deepl =>
    if jsTrim settings.deeplKey = [] then Except.error ("DeepL API key is required.".data)
    else
      match translateBatchDeepL batchDialogs settings.targetLang (jsTrim settings.deeplKey)
          net.deeplResp net.aborted net.sleepAborted net.jitter with
      | Except.error m => Except.error m
      | Except.ok r => Except.ok r.1
  | EngineKind.lingva =>
    Except.ok (translateBatchLingva batchDialogs settings.sourceLang settings.targetLang
      settings.lingvaBaseUrl net.lingvaResp net.lingvaAborted net.lingvaSleepAborted
      net.lingvaJitter)

/-! ### Claims C3 and C10 — provider contracts -/

theorem withRetryGo_ok {ε α : Type} (fn : Nat → Except ε α)
    (aborted sleepAborted : Nat → Bool) (jitter : Nat → Nat) (retries baseMs maxMs : Nat) :
    ∀ (fuel attempt : Nat) (a : α),
      (withRetryGo fn aborted sleepAborted jitter retries baseMs maxMs fuel attempt).1
          = RetryResult.ok a → ∃ k, fn k = Except.ok a := by
  intro fuel
  induction fuel with
  | zero => intro attempt a h; simp [withRetryGo] at h
  | succ f ih =>
    intro attempt a h
    simp only [withRetryGo] at h
    by_cases ha : aborted attempt = true
    · rw [if_pos ha] at h; simp at h
    · rw [if_neg ha] at h
      cases hfc : fn attempt with
      | ok b =>
        rw [hfc] at h
        dsimp only at h
        injection h with hba
        exact ⟨attempt, by rw [hfc, hba]⟩
      | error e =>
        rw [hfc] at h
        dsimp only at h
        by_cases hr : retries ≤ attempt
        · rw [if_pos hr] at h; simp at h
        · rw [if_neg hr] at h
          by_cases hs : sleepAborted attempt = true
          · rw [if_pos hs] at h; simp at h
          · rw [if_neg hs] at h
            dsimp only at h
            exact ih (attempt + 1) a h

theorem deepSeekRun_ok (n : Nat) (resp : ProxyResp) (out : List Str)
    (h : deepSeekRun n resp = Except.ok out) : out.length = n := by
  cases resp with
  | httpErr s t => simp [deepSeekRun] at h
  | noContent => simp [deepSeekRun] at h
  | content s =>
    simp only [deepSeekRun] at h
    cases hp : safeParseJsonArray s with
    | none => rw [hp] at h; simp at h
    | some arr =>
      rw [hp] at h
      dsimp only at h
      by_cases hl : arr.length = n
      · rw [if_neg (not_not_intro hl)] at h
        injection h with hout
        rw [← hout]; exact hl
      · rw [if_pos hl] at h; simp at h

theorem deepLRun_ok (n : Nat) (resp : DeepLResp) (out : List Str)
    (h : deepLRun n resp = Except.ok out) : out.length = n := by
  cases resp with
  | httpErr s t => simp [deepLRun] at h
  | translations ts =>
    simp only [deepLRun] at h
    by_cases hl : (ts.map (fun t => t.getD [])).length = n
    · rw [if_neg (not_not_intro hl)] at h
      injection h with hout
      rw [← hout]; exact hl
    · rw [if_pos hl] at h; simp at h

theorem lingvaGo_ok (oracle : Nat → Nat → LingvaResp) (aborted sleepAborted : Nat → Nat → Bool)
    (jitter : Nat → Nat → Nat) (urlCount : Nat) :
    ∀ (lines : List Str) (i : Nat) (out : List Str),
      lingvaGo oracle aborted sleepAborted jitter urlCount i lines = RetryResult.ok out →
      out.length = lines.length := by
  intro lines
  induction lines with
  | nil =>
    intro i out h
    simp only [lingvaGo] at h
    injection h with hout
    rw [← hout]
  | cons x rest ih =>
    intro i out h
    simp only [lingvaGo] at h
    cases hw : (withRetry (fun k => lingvaRun (oracle i k)) (aborted i) (sleepAborted i)
        (jitter i) (min 3 (urlCount - 1)) 400 2000).1 with
    | ok t =>
      rw [hw] at h
      dsimp only at h
      cases hg : lingvaGo oracle aborted sleepAborted jitter urlCount (i + 1) rest with
      | ok out2 =>
        rw [hg] at h
        dsimp only at h
        injection h with hout
        rw [← hout]
        simp [ih (i + 1) out2 hg]
      | failed e => rw [hg] at h; simp at h
      | aborted => rw [hg] at h; simp at h
    | failed e => rw [hw] at h; simp at h
    | aborted => rw [hw] at h; simp at h

/-- C3: provider length contract, amended.  Each of the three adapters
returns, when it succeeds, exactly one translation per batch item
(`translateBatchDeepSeek` and `translateBatchDeepL` enforce the length
explicitly and fail otherwise; `translateBatchLingva` translates line by
line).  The contract holds for the adapters only: the legacy
`translateFile` pipeline cited alongside them silently pads and
truncates (see the counterexample). -/
theorem C3_provider_length :
    (∀ (batch : List DialogItem) (targetLang apiKey : Str) (responses : Nat → ProxyResp)
       (aborted sleepAborted : Nat → Bool) (jitter : Nat → Nat) (out : List Str),
       (translateBatchDeepSeek batch targetLang apiKey responses aborted sleepAborted jitter).1
           = RetryResult.ok out → out.length = batch.length) ∧
    (∀ (batch : List DialogItem) (targetLang apiKey : Str) (responses : Nat → DeepLResp)
       (aborted sleepAborted : Nat → Bool) (jitter : Nat → Nat)
       (r : RetryResult Str (List Str) × Nat × List Nat) (out : List Str),
       translateBatchDeepL batch targetLang apiKey responses aborted sleepAborted jitter
           = Except.ok r → r.1 = RetryResult.ok out → out.length = batch.length) ∧
    (∀ (batch : List DialogItem) (sourceLang targetLang baseUrl : Str)
       (oracle : Nat → Nat → LingvaResp) (aborted sleepAborted : Nat → Nat → Bool)
       (jitter : Nat → Nat → Nat) (out : List Str),
       translateBatchLingva batch sourceLang targetLang baseUrl oracle aborted sleepAborted jitter
           = RetryResult.ok out → out.length = batch.length) := by
  refine ⟨?_, ?_, ?_⟩
  · intro batch tl key resp ab sl j out h
    simp only [translateBatchDeepSeek, withRetry] at h
    obtain ⟨k, hk⟩ := withRetryGo_ok _ _ _ _ _ _ _ _ _ _ h
    have hlen := deepSeekRun_ok _ _ _ hk
    rw [List.length_map] at hlen
    exact hlen
  · intro batch tl key resp ab sl j r out h1 h2
    simp only [translateBatchDeepL] at h1
    cases hg : getDeepLLangCode tl with
    | error m => rw [hg] at h1; simp at h1
    | ok v =>
      rw [hg] at h1
      dsimp only at h1
      injection h1 with hr
      rw [← hr] at h2
      simp only [withRetry] at h2
      obtain ⟨k, hk⟩ := withRetryGo_ok _ _ _ _ _ _ _ _ _ _ h2
      have hlen := deepLRun_ok _ _ _ hk
      rw [List.length_map] at hlen
      exact hlen
  · intro batch slg tlg burl oracle ab sl j out h
    simp only [translateBatchLingva] at h
    have hlen := lingvaGo_ok oracle ab sl j (lingvaUrls burl).length (batch.map srcLine) 0 out h
    rw [List.length_map] at hlen
    exact hlen

/-- A one-item batch used to exercise the adapters on concrete inputs. -/
def sampleDialog : DialogItem :=
  ⟨"d1".data, 0, "hello".data, "hello".data, [], "hello".data, none⟩

theorem C3_provider_length_witness :
    ((translateBatchDeepSeek [sampleDialog] ("en".data) ("k".data)
        (fun _ => ProxyResp.content ("[\"yo\"]".data)) (fun _ => false) (fun _ => false)
        (fun _ => 0)).1 = RetryResult.ok [("yo".data)] ∧
      ([("yo".data)] : List Str).length = [sampleDialog].length) ∧
    (translateBatchDeepL [sampleDialog] ("en".data) ("k".data)
        (fun _ => DeepLResp.translations [some ("ya".data)]) (fun _ => false) (fun _ => false)
        (fun _ => 0) = Except.ok (RetryResult.ok [("ya".data)], 1, ([] : List Nat)) ∧
      ([("ya".data)] : List Str).length = [sampleDialog].length) ∧
    (translateBatchLingva [sampleDialog] ("en".data) ("vi".data) []
        (fun _ _ => LingvaResp.translation ("xin".data)) (fun _ _ => false) (fun _ _ => false)
        (fun _ _ => 0) = RetryResult.ok [("xin".data)] ∧
      ([("xin".data)] : List Str).length = [sampleDialog].length) :=
  ⟨⟨by decide,
    C3_provider_length.1 [sampleDialog] ("en".data) ("k".data)
      (fun _ => ProxyResp.content ("[\"yo\"]".data)) (fun _ => false) (fun _ => false)
      (fun _ => 0) [("yo".data)] (by decide)⟩,
   ⟨by decide,
    C3_provider_length.2.1 [sampleDialog] ("en".data) ("k".data)
      (fun _ => DeepLResp.translations [some ("ya".data)]) (fun _ => false) (fun _ => false)
      (fun _ => 0) (RetryResult.ok [("ya".data)], 1, ([] : List Nat)) [("ya".data)]
      (by decide) (by decide)⟩,
   ⟨by decide,
    C3_provider_length.2.2 [sampleDialog] ("en".data) ("vi".data) []
      (fun _ _ => LingvaResp.translation ("xin".data)) (fun _ _ => false) (fun _ _ => false)
      (fun _ _ => 0) [("xin".data)] (by decide)⟩⟩

/-- C3 (counterexample): the legacy `translateFile` of `translator.js`,
also cited by the claim, violates the contract: on a file with two
quotes, a provider answer of a single line is silently padded — the run
succeeds, the second quote gets the empty translation, and one provider
call was made. -/
theorem C3_provider_length_cex :
    translateFile (fun _ _ => Except.ok ("xx".data)) 3 rpyExt ("e \"aa\" f \"bb\"".data)
      = (Except.ok [(("aa".data), ("xx".data)), (("bb".data), ([] : Str))], 1) := by
  decide

theorem getDeepL_unsupported (code : Str) (h : isDeepLSupportedTarget code = false) :
    getDeepLLangCode code
      = Except.error ("DeepL does not support target language: ".data
          ++ (languageLabel code ++ ['.'])) := by
  simp only [isDeepLSupportedTarget] at h
  simp only [getDeepLLangCode]
  cases hf : LANGUAGES.find? (fun x => jsLower x.code == jsLower (jsTrim code)) with
  | none => rfl
  | some x =>
    rw [hf] at h
    dsimp only at h ⊢
    cases hd : x.deepl with
    | none => rfl
    | some v =>
      rw [hd] at h
      dsimp only at h ⊢
      have hv : v = [] := not_not.mp (of_decide_eq_false h)
      rw [if_pos hv]

/-- C10: with engine `deepl`, a target language that the table maps to no
DeepL code, and a nonempty (trimmed) API key, `translateBatch` fails with
the error thrown by `getDeepLLangCode`, and that message names the
language through `languageLabel`.  In the model the DeepL branch returns
this `Except.error` directly from `getDeepLLangCode`, before the
per-attempt response function (the network) is ever consulted. -/
theorem C10_deepl_unsupported (code : Str) (hcode : isDeepLSupportedTarget code = false)
    (batch : List DialogItem) (settings : NetSettings) (net : NetOracle)
    (hTL : settings.targetLang = code) (hkey : ¬ jsTrim settings.deeplKey = []) :
    translateBatch EngineKind.deepl batch settings net
        = Except.error ("DeepL does not support target language: ".data
            ++ (languageLabel code ++ ['.'])) ∧
    occursIn (languageLabel code)
      ("DeepL does not support target language: ".data
          ++ (languageLabel code ++ ['.'])) = true := by
  constructor
  · simp only [translateBatch]
    rw [if_neg hkey]
    simp only [translateBatchDeepL, hTL, getDeepL_unsupported code hcode]
  · exact occursIn_sandwich (languageLabel code) _ _

/-- A network oracle whose responses are never used by the statements
that mention it. -/
def trivialNet : NetOracle :=
  ⟨fun _ => ProxyResp.noContent, fun _ => DeepLResp.translations [],
   fun _ _ => LingvaResp.missing, fun _ => false, fun _ => false,
   fun _ _ => false, fun _ _ => false, fun _ => 0, fun _ _ => 0⟩

theorem C10_deepl_unsupported_witness :
    isDeepLSupportedTarget ("vi".data) = false ∧
    ¬ jsTrim ("k".data) = [] ∧
    (translateBatch EngineKind.deepl [] ⟨"en".data, "vi".data, [], "k".data, []⟩ trivialNet
        = Except.error ("DeepL does not support target language: ".data
            ++ (languageLabel ("vi".data) ++ ['.'])) ∧
     occursIn (languageLabel ("vi".data))
        ("DeepL does not support target language: ".data
            ++ (languageLabel ("vi".data) ++ ['.'])) = true) :=
  ⟨by decide, by decide,
   C10_deepl_unsupported ("vi".data) (by decide) []
     ⟨"en".data, "vi".data, [], "k".data, []⟩ trivialNet rfl (by decide)⟩

/-! ### ASCII lowering versus trimming -/

theorem char_toNat_ofNat (m : Nat) (h : m < 55296 ∨ (57344 ≤ m ∧ m < 1114112)) :
    (Char.ofNat m).toNat = m := by
  have hv : m.isValidChar := h
  rw [Char.ofNat, dif_pos hv]
  rw [Char.toNat, Char.ofNatAux]
  show (UInt32.ofNat' m _).toNat = m
  unfold UInt32.ofNat'
  unfold UInt32.toNat
  simp

theorem char_le_toNat (c d : Char) : c ≤ d ↔ c.toNat ≤ d.toNat := Iff.rfl

theorem char_eq_toNat (c d : Char) (h : c = d) : c.toNat = d.toNat := congrArg Char.toNat h

theorem jsWs_of_toNat (c : Char) (h32 : c.toNat ≠ 32) (h9 : c.toNat ≠ 9) (h10 : c.toNat ≠ 10)
    (h13 : c.toNat ≠ 13) (h11 : c.toNat ≠ 11) (h12 : c.toNat ≠ 12) (h160 : c.toNat ≠ 160)
    (h65279 : c.toNat ≠ 65279) : jsWs c = false := by
  refine decide_eq_false ?_
  rintro (h | h | h | h | h | h | h | h)
  · exact h32 (char_eq_toNat _ _ h)
  · exact h9 (char_eq_toNat _ _ h)
  · exact h10 (char_eq_toNat _ _ h)
  · exact h13 (char_eq_toNat _ _ h)
  · exact h11 ((char_eq_toNat _ _ h).trans (char_toNat_ofNat 11 (by omega)))
  · exact h12 ((char_eq_toNat _ _ h).trans (char_toNat_ofNat 12 (by omega)))
  · exact h160 ((char_eq_toNat _ _ h).trans (char_toNat_ofNat 160 (by omega)))
  · exact h65279 ((char_eq_toNat _ _ h).trans (char_toNat_ofNat 65279 (by omega)))

theorem jsLowerChar_toNat (c : Char) :
    (jsLowerChar c).toNat = if 65 ≤ c.toNat ∧ c.toNat ≤ 90 then c.toNat + 32 else c.toNat := by
  rw [jsLowerChar]
  by_cases h : 65 ≤ c.toNat ∧ c.toNat ≤ 90
  · rw [if_pos h]
    have hAZ : ('A' ≤ c ∧ c ≤ 'Z') := ⟨(char_le_toNat 'A' c).mpr h.1, (char_le_toNat c 'Z').mpr h.2⟩
    rw [if_pos hAZ]
    exact char_toNat_ofNat _ (by omega)
  · rw [if_neg h, if_neg (fun hc => h ⟨(char_le_toNat 'A' c).mp hc.1, (char_le_toNat c 'Z').mp hc.2⟩)]

theorem jsWs_lowerChar (c : Char) : jsWs (jsLowerChar c) = jsWs c := by
  by_cases h : 65 ≤ c.toNat ∧ c.toNat ≤ 90
  · have hl : (jsLowerChar c).toNat = c.toNat + 32 := by rw [jsLowerChar_toNat, if_pos h]
    rw [jsWs_of_toNat c (by omega) (by omega) (by omega) (by omega) (by omega) (by omega)
        (by omega) (by omega),
      jsWs_of_toNat _ (by omega) (by omega) (by omega) (by omega) (by omega) (by omega)
        (by omega) (by omega)]
  · have hc : jsLowerChar c = c := by
      rw [jsLowerChar,
        if_neg (fun hc => h ⟨(char_le_toNat 'A' c).mp hc.1, (char_le_toNat c 'Z').mp hc.2⟩)]
    rw [hc]

theorem jsLowerChar_idem (c : Char) : jsLowerChar (jsLowerChar c) = jsLowerChar c := by
  by_cases h : 65 ≤ c.toNat ∧ c.toNat ≤ 90
  · have hl : (jsLowerChar c).toNat = c.toNat + 32 := by rw [jsLowerChar_toNat, if_pos h]
    rw [jsLowerChar]
    rw [if_neg (fun hc => ?_)]
    have h1 : (65 : Nat) ≤ (jsLowerChar c).toNat := (char_le_toNat _ _).mp hc.1
    have h2 : (jsLowerChar c).toNat ≤ (90 : Nat) := (char_le_toNat _ _).mp hc.2
    rw [hl] at h1 h2
    omega
  · have hc : jsLowerChar c = c := by
      rw [jsLowerChar,
        if_neg (fun hc => h ⟨(char_le_toNat 'A' c).mp hc.1, (char_le_toNat c 'Z').mp hc.2⟩)]
    rw [hc, hc]

theorem jsLower_idem (t : Str) : jsLower (jsLower t) = jsLower t := by
  rw [jsLower, jsLower, List.map_map]
  exact List.map_congr_left (fun c _ => jsLowerChar_idem c)

theorem head_dropWhile_not (p : Char → Bool) :
    ∀ (l : Str) (c : Char), (l.dropWhile p).head? = some c → p c = false := by
  intro l
  induction l with
  | nil => intro c h; simp at h
  | cons x r ih =>
    intro c h
    by_cases hx : p x = true
    · rw [List.dropWhile_cons, if_pos hx] at h
      exact ih c h
    · rw [List.dropWhile_cons, if_neg hx] at h
      injection h with hc
      rw [← hc]
      exact Bool.not_eq_true _ ▸ hx

theorem getLast_dropWhile (p : Char → Bool) :
    ∀ (l : Str), l.dropWhile p ≠ [] → (l.dropWhile p).getLast? = l.getLast? := by
  intro l
  induction l with
  | nil => intro h; rfl
  | cons x r ih =>
    intro h
    by_cases hx : p x = true
    · rw [List.dropWhile_cons, if_pos hx] at h ⊢
      rw [ih h]
      cases r with
      | nil => simp [List.dropWhile] at h
      | cons y t => rw [List.getLast?_cons_cons]
    · rw [List.dropWhile_cons, if_neg hx]

theorem jsTrim_head_not_ws (t : Str) (c : Char) (h : (jsTrim t).head? = some c) :
    jsWs c = false := by
  rw [jsTrim, List.head?_reverse] at h
  by_cases hne : (t.dropWhile jsWs).reverse.dropWhile jsWs = []
  · rw [hne] at h; simp at h
  · rw [getLast_dropWhile jsWs _ hne, List.getLast?_reverse] at h
    exact head_dropWhile_not jsWs t c h

theorem jsTrim_last_not_ws (t : Str) (c : Char) (h : (jsTrim t).getLast? = some c) :
    jsWs c = false := by
  rw [jsTrim, List.getLast?_reverse] at h
  exact head_dropWhile_not jsWs _ c h

/-- Trimming after lowering a trimmed string changes nothing: lowering
maps no character into or out of the whitespace class. -/
theorem jsTrim_lower_trim (t : Str) : jsTrim (jsLower (jsTrim t)) = jsLower (jsTrim t) := by
  apply jsTrim_id
  · intro c h
    rw [jsLower, List.head?_map] at h
    cases hh : (jsTrim t).head? with
    | none => rw [hh] at h; simp at h
    | some c0 =>
      rw [hh] at h
      injection h with hc
      rw [← hc, jsWs_lowerChar]
      exact jsTrim_head_not_ws t c0 hh
  · intro c h
    rw [jsLower, List.getLast?_map] at h
    cases hh : (jsTrim t).getLast? with
    | none => rw [hh] at h; simp at h
    | some c0 =>
      rw [hh] at h
      injection h with hc
      rw [← hc, jsWs_lowerChar]
      exact jsTrim_last_not_ws t c0 hh

/-! ### Translation memory and project state (`src/ui/state.ts`)

The Dexie tables are modelled as ordered association lists: `dialogs`
keyed by `id` (in `idx` order, the current file), `tm` keyed by `key`.
`put` replaces the row with the same key in place, or appends. -/

structure TMEntry where
  key : Str
  targetLang : Str
  sourceKey : Str
  sourceText : Str
  translatedText : Str
  createdAt : Nat
  updatedAt : Nat
  useCount : Nat
deriving DecidableEq

/-- `tmKey` from `src/ui/state.ts`. -/
def tmKey (targetLang sourceKey : Str) : Str :=
  jsLower (jsTrim targetLang) ++ (':' :: ':' :: jsTrim sourceKey)

theorem tmKey_norm (tl sk : Str) : tmKey (jsLower (jsTrim tl)) sk = tmKey tl sk := by
  rw [tmKey, tmKey, jsTrim_lower_trim, jsLower_idem]

/-- `dialogSourceKey`: `String(d.cacheKey || d.maskedQuote || d.quote || '').trim()`. -/
def dialogSourceKey (d : DialogItem) : Str :=
  jsTrim (firstTruthy d.cacheKey (firstTruthy d.maskedQuote (firstTruthy d.quote [])))

def tmGet (tm : List TMEntry) (k : Str) : Option TMEntry := tm.find? (fun e => e.key == k)

def tmPut (tm : List TMEntry) (x : TMEntry) : List TMEntry :=
  if (tm.find? (fun e => e.key == x.key)).isSome then
    tm.map (fun e => if e.key == x.key then x else e)
  else tm ++ [x]

def dlgGet (ds : List DialogItem) (i : Str) : Option DialogItem := ds.find? (fun d => d.id == i)

def dlgPut (ds : List DialogItem) (x : DialogItem) : List DialogItem :=
  if (ds.find? (fun d => d.id == x.id)).isSome then
    ds.map (fun d => if d.id == x.id then x else d)
  else ds ++ [x]

/-- The persisted state the modelled operations touch: the current
file's dialog rows and the translation-memory table. -/
structure AppState where
  dialogs : List DialogItem
  tm : List TMEntry
deriving DecidableEq

/-- The slice of project settings these operations read. -/
structure StSettings where
  targetLang : Str
  tmEnabled : Bool
  tmAutoAdd : Bool
  batchSize : Nat

/-- `!!(d.translated && d.translated.trim())`. -/
def hasTranslated (d : DialogItem) : Bool :=
  match d.translated with
  | none => false
  | some s => jsTrim s ≠ []

def optStr : Option Str → Str
  | none => []
  | some s => s

/-- The TM auto-add upsert shared verbatim by `updateTranslation` and the
`translateScope` commit loop: update `translatedText`/`sourceText` of the
existing entry, or insert a fresh entry whose `targetLang` is trimmed and
lowercased. -/
def commitTM (settings : StSettings) (now : Nat) (row : DialogItem) (next : Str)
    (tm : List TMEntry) : List TMEntry :=
  match tmGet tm (tmKey settings.targetLang (dialogSourceKey row)) with
  | some ex => tmPut tm { ex with translatedText := next, sourceText := row.quote, updatedAt := now }
  | none =>
    tmPut tm ⟨tmKey settings.targetLang (dialogSourceKey row),
      jsLower (jsTrim settings.targetLang), dialogSourceKey row, row.quote, next, now, now, 0⟩

/-- `updateTranslation` (the clock is a parameter; the missing-project
and missing-row early returns leave the state unchanged). -/
def updateTranslation (settings : StSettings) (now : Nat) (st : AppState)
    (dialogId : Str) (text : Str) : AppState :=
  match dlgGet st.dialogs dialogId with
  | none => st
  | some row0 =>
    ⟨dlgPut st.dialogs { row0 with translated := some text },
     if settings.tmEnabled ∧ settings.tmAutoAdd ∧ jsTrim text ≠ [] then
       commitTM settings now { row0 with translated := some text } text st.tm
     else st.tm⟩

/-- Loop body of `bulkUpdateTranslations`.  Unlike `commitTM`, the fresh
entry stores `settings.targetLang` verbatim — neither trimmed nor
lowercased — and `sourceText` falls back to the previous entry. -/
def bulkGo (settings : StSettings) (now : Nat) :
    List (Str × Str) → AppState → AppState
  | [], st => st
  | u :: rest, st =>
    match dlgGet st.dialogs u.1 with
    | none => bulkGo settings now rest st
    | some row0 =>
      bulkGo settings now rest
        ⟨dlgPut st.dialogs { row0 with translated := some u.2 },
         if settings.tmEnabled ∧ settings.tmAutoAdd ∧ jsTrim u.2 ≠ [] then
           (match tmGet st.tm (tmKey settings.targetLang
               (dialogSourceKey { row0 with translated := some u.2 })) with
            | some ex =>
              tmPut st.tm { ex with translatedText := u.2, sourceText := firstTruthy row0.quote ex.sourceText, updatedAt := now }
            | none =>
              tmPut st.tm ⟨tmKey settings.targetLang
                  (dialogSourceKey { row0 with translated := some u.2 }),
                settings.targetLang,
                dialogSourceKey { row0 with translated := some u.2 },
                firstTruthy row0.quote [], u.2, now, now, 0⟩)
         else st.tm⟩

/-- `bulkUpdateTranslations`: returns the new state and the count of
cleaned updates. -/
def bulkUpdateTranslations (settings : StSettings) (now : Nat) (st : AppState)
    (updates : List (Str × Str)) : AppState × Nat :=
  (bulkGo settings now (updates.filter (fun u => u.1 ≠ [])) st,
   (updates.filter (fun u => u.1 ≠ [])).length)

/-- One record of an imported TM file before normalization. -/
structure RawTMEntry where
  targetLang : Str
  sourceKey : Str
  sourceText : Str
  translatedText : Str
  createdAt : Nat
  updatedAt : Nat
  useCount : Nat

/-- The normalization loop of the TM import: trim and lowercase
`targetLang`, trim `sourceKey`, drop records with an empty language, key
or (trimmed) translation; `Number(x) || now()` is modelled as
zero-means-now. -/
def importNormGo (now : Nat) : List RawTMEntry → List TMEntry
  | [] => []
  | e :: rest =>
    if jsLower (jsTrim e.targetLang) = [] ∨ jsTrim e.sourceKey = [] ∨
        jsTrim e.translatedText = [] then importNormGo now rest
    else
      ⟨tmKey (jsLower (jsTrim e.targetLang)) (jsTrim e.sourceKey),
        jsLower (jsTrim e.targetLang), jsTrim e.sourceKey, e.sourceText, e.translatedText,
        if e.createdAt = 0 then now else e.createdAt,
        if e.updatedAt = 0 then now else e.updatedAt,
        e.useCount⟩ :: importNormGo now rest

/-- The TM import (`importTM` of `src/ui/state.ts`) for one parsed file:
`bulkPut` of the normalized entries; returns the added count. -/
def tmImport (now : Nat) (st : AppState) (entries : List RawTMEntry) : AppState × Nat :=
  (⟨st.dialogs, (importNormGo now entries).foldl tmPut st.tm⟩, (importNormGo now entries).length)

/-- The `toUpdate` collection loop of `applyTMToCurrentFile`: skip rows
without a TM hit or with an empty stored translation; in `missing` mode
skip rows that already have a nonblank translation; skip rows already
equal to the hit. -/
def applyCollect (settings : StSettings) (missingMode : Bool) (tm : List TMEntry) :
    List DialogItem → List DialogItem
  | [] => []
  | d :: rest =>
    match tmGet tm (tmKey settings.targetLang (dialogSourceKey d)) with
    | none => applyCollect settings missingMode tm rest
    | some h =>
      if h.translatedText = [] then applyCollect settings missingMode tm rest
      else if missingMode ∧ hasTranslated d then applyCollect settings missingMode tm rest
      else if d.translated = some h.translatedText then applyCollect settings missingMode tm rest
      else { d with translated := some h.translatedText } :: applyCollect settings missingMode tm rest

/-- `applyTMToCurrentFile`: with TM enabled, bulk-write the collected
rows and bump `useCount`/`updatedAt` of each hit entry; returns the
filled count.  (The early return on an empty collection produces the
same state and count, so it is not a separate branch here.) -/
def applyTMToCurrentFile (settings : StSettings) (now : Nat) (missingMode : Bool)
    (st : AppState) : AppState × Nat :=
  if settings.tmEnabled then
    (⟨(applyCollect settings missingMode st.tm st.dialogs).foldl dlgPut st.dialogs,
      (applyCollect settings missingMode st.tm st.dialogs).foldl
        (fun tm u =>
          match tmGet tm (tmKey settings.targetLang (dialogSourceKey u)) with
          | none => tm
          | some ex => tmPut tm { ex with useCount := ex.useCount + 1, updatedAt := now }) st.tm⟩,
     (applyCollect settings missingMode st.tm st.dialogs).length)
  else (st, 0)

inductive Scope where
  | all
  | missing
  | selected
  | filtered
deriving DecidableEq

/-- UI state read by the candidate filter of `translateScope`. -/
structure UIView where
  filter : Str
  selectedIds : List Str
  showUntranslatedOnly : Bool

/-- The candidate predicate of `translateScope` (both passes use the
same one). -/
def candidateFilter (scope : Scope) (ui : UIView) (d : DialogItem) : Bool :=
  if scope = Scope.missing ∧ hasTranslated d then false
  else if scope = Scope.selected ∧ ¬ ui.selectedIds.contains d.id then false
  else if scope = Scope.filtered ∧ jsLower (jsTrim ui.filter) ≠ [] ∧
      occursIn (jsLower (jsTrim ui.filter)) (jsLower d.quote) = false ∧
      occursIn (jsLower (jsTrim ui.filter)) (jsLower (optStr d.translated)) = false then false
  else if ui.showUntranslatedOnly ∧ hasTranslated d then false
  else true

def scopeCandidates (scope : Scope) (ui : UIView) (ds : List DialogItem) : List DialogItem :=
  ds.filter (candidateFilter scope ui)

/-- `postprocessTranslatedLines` from `src/lib/translate.ts`; the
`unmaskTagsInText` helper is the parameter `post`. -/
def postprocessTranslatedLines (post : Str → List (Str × Str) → Str) :
    List DialogItem → List Str → List Str
  | [], _ => []
  | d :: rest, ts => post (ts.headD []) d.placeholderMap
      :: postprocessTranslatedLines post rest ts.tail

/-- The per-item commit of one batch inside `translateScope`: re-read the
row by id, write the translation, and auto-add to TM (same upsert as
`updateTranslation`). -/
def commitGo (settings : StSettings) (now : Nat) :
    List (DialogItem × Str) → AppState → AppState
  | [], st => st
  | (d, next) :: rest, st =>
    match dlgGet st.dialogs d.id with
    | none => commitGo settings now rest st
    | some row0 =>
      commitGo settings now rest
        ⟨dlgPut st.dialogs { row0 with translated := some next },
         if settings.tmEnabled ∧ settings.tmAutoAdd ∧ jsTrim next ≠ [] then
           commitTM settings now { row0 with translated := some next } next st.tm
         else st.tm⟩

/-- Commit one batch: postprocess the provider lines, then run the
commit loop over the batch paired with its lines. -/
def commitBatch (settings : StSettings) (now : Nat) (post : Str → List (Str × Str) → Str)
    (batch : List DialogItem) (translated : List Str) (st : AppState) : AppState :=
  commitGo settings now (batch.zip (postprocessTranslatedLines post batch translated)) st

/-- Slicing `candidates2` into batches of `n` (`n ≥ 1`; the fuel is the
list length). -/
def chunksGo {α : Type} (n : Nat) : Nat → List α → List (List α)
  | _, [] => []
  | 0, _ :: _ => []
  | fuel + 1, x :: rest => (x :: rest).take n :: chunksGo n fuel ((x :: rest).drop n)

inductive RunOutcome where
  | finished
  | failedAt (k : Nat) (m : Str)
deriving DecidableEq

/-- The provider loop of `translateScope`: batch `k` goes to the provider
(`oracle`); a thrown error ends the run — the failing batch commits
nothing and later batches never run.  Logging and progress updates are
pure side effects and are not modelled. -/
def runLoop (settings : StSettings) (post : Str → List (Str × Str) → Str)
    (oracle : Nat → List DialogItem → Except Str (List Str)) (now : Nat) :
    List (List DialogItem) → Nat → AppState → AppState × RunOutcome
  | [], _, st => (st, RunOutcome.finished)
  | batch :: rest, k, st =>
    match oracle k batch with
    | Except.error m => (st, RunOutcome.failedAt k m)
    | Except.ok translated =>
      runLoop settings post oracle now rest (k + 1)
        (commitBatch settings now post batch translated st)

/-- The state after committing exactly the successful prefix of a batch
list (used to phrase resumability). -/
def commitsOf (settings : StSettings) (post : Str → List (Str × Str) → Str)
    (oracle : Nat → List DialogItem → Except Str (List Str)) (now : Nat) :
    List (List DialogItem) → Nat → AppState → AppState
  | [], _, st => st
  | batch :: rest, k, st =>
    match oracle k batch with
    | Except.error _ => st
    | Except.ok translated =>
      commitsOf settings post oracle now rest (k + 1)
        (commitBatch settings now post batch translated st)

/-- `translateScope`: compute candidates; if TM is enabled run the
`missing`-mode prefill; recompute candidates with the same predicate;
then run the provider loop over batches of the clamped batch size. -/
def translateScope (settings : StSettings) (ui : UIView) (scope : Scope)
    (post : Str → List (Str × Str) → Str)
    (oracle : Nat → List DialogItem → Except Str (List Str)) (now : Nat)
    (st : AppState) : AppState × RunOutcome :=
  if scopeCandidates scope ui st.dialogs = [] then (st, RunOutcome.finished)
  else
    (fun st1 =>
      if scopeCandidates scope ui st1.dialogs = [] then (st1, RunOutcome.finished)
      else
        runLoop settings post oracle now
          (chunksGo (max 1 (min 60 (if settings.batchSize = 0 then 20 else settings.batchSize)))
            (scopeCandidates scope ui st1.dialogs).length
            (scopeCandidates scope ui st1.dialogs))
          0 st1)
    (if settings.tmEnabled then (applyTMToCurrentFile settings now true st).1 else st)

/-- The operations that write translation-memory entries. -/
inductive TMOp where
  | update (settings : StSettings) (now : Nat) (dialogId : Str) (text : Str)
  | bulk (settings : StSettings) (now : Nat) (updates : List (Str × Str))
  | prefill (settings : StSettings) (now : Nat) (missingMode : Bool)
  | run (settings : StSettings) (ui : UIView) (scope : Scope)
      (post : Str → List (Str × Str) → Str)
      (oracle : Nat → List DialogItem → Except Str (List Str)) (now : Nat)
  | imp (now : Nat) (entries : List RawTMEntry)

def applyOp (st : AppState) : TMOp → AppState
  | TMOp.update settings now dialogId text => updateTranslation settings now st dialogId text
  | TMOp.bulk settings now updates => (bulkUpdateTranslations settings now st updates).1
  | TMOp.prefill settings now missingMode => (applyTMToCurrentFile settings now missingMode st).1
  | TMOp.run settings ui scope post oracle now =>
      (translateScope settings ui scope post oracle now st).1
  | TMOp.imp now entries => (tmImport now st entries).1

/-- Every persisted TM entry is reachable by a `tmKey` lookup built from
its own fields: its key is the canonical key of its `targetLang` and
`sourceKey`. -/
@[reducible] def TMInv (tm : List TMEntry) : Prop :=
  ∀ e ∈ tm, e.key = tmKey e.targetLang e.sourceKey

/-! ### Claim C9 — TM key invariant -/

theorem tmGet_mem (tm : List TMEntry) (k : Str) (e : TMEntry) (h : tmGet tm k = some e) :
    e ∈ tm := List.mem_of_find?_eq_some h

theorem tmPut_mem (tm : List TMEntry) (x e : TMEntry) (h : e ∈ tmPut tm x) :
    e ∈ tm ∨ e = x := by
  rw [tmPut] at h
  by_cases hf : (tm.find? (fun y => y.key == x.key)).isSome
  · rw [if_pos hf] at h
    rcases List.mem_map.mp h with ⟨y, hy, hfy⟩
    by_cases hk : (y.key == x.key) = true
    · right; rw [← hfy, if_pos hk]
    · left; rw [← hfy, if_neg hk]; exact hy
  · rw [if_neg hf] at h
    rcases List.mem_append.mp h with h1 | h1
    · left; exact h1
    · right; simpa using h1

theorem TMInv_tmPut {tm : List TMEntry} {x : TMEntry} (h : TMInv tm)
    (hx : x.key = tmKey x.targetLang x.sourceKey) : TMInv (tmPut tm x) :=
  fun e he => (tmPut_mem tm x e he).elim (h e) (fun hex => hex ▸ hx)

theorem TMInv_commitTM (settings : StSettings) (now : Nat) (row : DialogItem) (next : Str)
    (tm : List TMEntry) (h : TMInv tm) : TMInv (commitTM settings now row next tm) := by
  rw [commitTM]
  cases hg : tmGet tm (tmKey settings.targetLang (dialogSourceKey row)) with
  | none =>
    apply TMInv_tmPut h
    show tmKey settings.targetLang (dialogSourceKey row)
        = tmKey (jsLower (jsTrim settings.targetLang)) (dialogSourceKey row)
    exact (tmKey_norm _ _).symm
  | some ex =>
    apply TMInv_tmPut h
    show ex.key = tmKey ex.targetLang ex.sourceKey
    exact h ex (tmGet_mem _ _ _ hg)

theorem TMInv_update (settings : StSettings) (now : Nat) (st : AppState)
    (dialogId text : Str) (h : TMInv st.tm) :
    TMInv (updateTranslation settings now st dialogId text).tm := by
  rw [updateTranslation]
  cases hd : dlgGet st.dialogs dialogId with
  | none => exact h
  | some row0 =>
    dsimp only
    by_cases hc : settings.tmEnabled ∧ settings.tmAutoAdd ∧ jsTrim text ≠ []
    · rw [if_pos hc]; exact TMInv_commitTM _ _ _ _ _ h
    · rw [if_neg hc]; exact h

theorem TMInv_bulkGo (settings : StSettings) (now : Nat) :
    ∀ (us : List (Str × Str)) (st : AppState), TMInv st.tm →
      TMInv ((bulkGo settings now us st).tm) := by
  intro us
  induction us with
  | nil => intro st h; exact h
  | cons u rest ih =>
    intro st h
    rw [bulkGo]
    cases hd : dlgGet st.dialogs u.1 with
    | none => exact ih st h
    | some row0 =>
      dsimp only
      apply ih
      dsimp only
      by_cases hc : settings.tmEnabled ∧ settings.tmAutoAdd ∧ jsTrim u.2 ≠ []
      · rw [if_pos hc]
        cases hg : tmGet st.tm (tmKey settings.targetLang
            (dialogSourceKey { row0 with translated := some u.2 })) with
        | none =>
          apply TMInv_tmPut h
          rfl
        | some ex =>
          apply TMInv_tmPut h
          show ex.key = tmKey ex.targetLang ex.sourceKey
          exact h ex (tmGet_mem _ _ _ hg)
      · rw [if_neg hc]; exact h

theorem TMInv_importNorm (now : Nat) : ∀ (entries : List RawTMEntry) (tm : List TMEntry),
    TMInv tm → TMInv ((importNormGo now entries).foldl tmPut tm) := by
  intro entries
  induction entries with
  | nil => intro tm h; exact h
  | cons e rest ih =>
    intro tm h
    rw [importNormGo]
    by_cases hc : jsLower (jsTrim e.targetLang) = [] ∨ jsTrim e.sourceKey = [] ∨
        jsTrim e.translatedText = []
    · rw [if_pos hc]; exact ih tm h
    · rw [if_neg hc, List.foldl_cons]
      apply ih
      apply TMInv_tmPut h
      show tmKey (jsLower (jsTrim e.targetLang)) (jsTrim e.sourceKey)
          = tmKey (jsLower (jsTrim e.targetLang)) (jsTrim e.sourceKey)
      rfl

theorem TMInv_bump (settings : StSettings) (now : Nat) :
    ∀ (us : List DialogItem) (tm : List TMEntry), TMInv tm →
      TMInv (us.foldl (fun tm u =>
        match tmGet tm (tmKey settings.targetLang (dialogSourceKey u)) with
        | none => tm
        | some ex => tmPut tm { ex with useCount := ex.useCount + 1, updatedAt := now }) tm) := by
  intro us
  induction us with
  | nil => intro tm h; exact h
  | cons u rest ih =>
    intro tm h
    rw [List.foldl_cons]
    apply ih
    cases hg : tmGet tm (tmKey settings.targetLang (dialogSourceKey u)) with
    | none => exact h
    | some ex =>
      apply TMInv_tmPut h
      show ex.key = tmKey ex.targetLang ex.sourceKey
      exact h ex (tmGet_mem _ _ _ hg)

theorem TMInv_prefill (settings : StSettings) (now : Nat) (mm : Bool) (st : AppState)
    (h : TMInv st.tm) : TMInv (applyTMToCurrentFile settings now mm st).1.tm := by
  rw [applyTMToCurrentFile]
  by_cases he : settings.tmEnabled = true
  · rw [if_pos he]
    exact TMInv_bump settings now _ _ h
  · rw [if_neg he]
    exact h

theorem TMInv_commitGo (settings : StSettings) (now : Nat) :
    ∀ (ps : List (DialogItem × Str)) (st : AppState), TMInv st.tm →
      TMInv ((commitGo settings now ps st).tm) := by
  intro ps
  induction ps with
  | nil => intro st h; exact h
  | cons p rest ih =>
    intro st h
    rcases p with ⟨d, next⟩
    rw [commitGo]
    cases hd : dlgGet st.dialogs d.id with
    | none => exact ih st h
    | some row0 =>
      dsimp only
      apply ih
      dsimp only
      by_cases hc : settings.tmEnabled ∧ settings.tmAutoAdd ∧ jsTrim next ≠ []
      · rw [if_pos hc]; exact TMInv_commitTM _ _ _ _ _ h
      · rw [if_neg hc]; exact h

theorem TMInv_runLoop (settings : StSettings) (post : Str → List (Str × Str) → Str)
    (oracle : Nat → List DialogItem → Except Str (List Str)) (now : Nat) :
    ∀ (bs : List (List DialogItem)) (k : Nat) (st : AppState), TMInv st.tm →
      TMInv ((runLoop settings post oracle now bs k st).1.tm) := by
  intro bs
  induction bs with
  | nil => intro k st h; exact h
  | cons b rest ih =>
    intro k st h
    rw [runLoop]
    cases ho : oracle k b with
    | error m => exact h
    | ok translated =>
      dsimp only
      exact ih (k + 1) _ (TMInv_commitGo settings now _ st h)

theorem TMInv_translateScope (settings : StSettings) (ui : UIView) (scope : Scope)
    (post : Str → List (Str × Str) → Str)
    (oracle : Nat → List DialogItem → Except Str (List Str)) (now : Nat) (st : AppState)
    (h : TMInv st.tm) : TMInv (translateScope settings ui scope post oracle now st).1.tm := by
  rw [translateScope]
  by_cases h0 : scopeCandidates scope ui st.dialogs = []
  · rw [if_pos h0]; exact h
  · rw [if_neg h0]
    dsimp only
    have h1 : TMInv (if settings.tmEnabled then (applyTMToCurrentFile settings now true st).1
        else st).tm := by
      by_cases he : settings.tmEnabled = true
      · rw [if_pos he]; exact TMInv_prefill settings now true st h
      · rw [if_neg he]; exact h
    by_cases h2 : scopeCandidates scope ui (if settings.tmEnabled
        then (applyTMToCurrentFile settings now true st).1 else st).dialogs = []
    · rw [if_pos h2]; exact h1
    · rw [if_neg h2]; exact TMInv_runLoop settings post oracle now _ 0 _ h1

/-- C9: TM key invariant, amended.  After any sequence of the TM-writing
operations (`updateTranslation`, `bulkUpdateTranslations`, the TM
prefill, the `translateScope` commit loop, and the TM import), every
persisted entry's `key` equals `tmKey entry.targetLang entry.sourceKey`,
so a lookup built with `tmKey` from an entry's own fields finds it.  The
claimed stronger invariant — that `targetLang` itself is stored
lowercased — is false: `bulkUpdateTranslations` stores the raw settings
value (see the counterexample). -/
theorem C9_tm_key_invariant :
    ∀ (ops : List TMOp) (st : AppState), TMInv st.tm → TMInv ((ops.foldl applyOp st).tm) := by
  intro ops
  induction ops with
  | nil => intro st h; exact h
  | cons op rest ih =>
    intro st h
    rw [List.foldl_cons]
    apply ih
    cases op with
    | update settings now dialogId text => exact TMInv_update settings now st dialogId text h
    | bulk settings now updates =>
      exact TMInv_bulkGo settings now (updates.filter (fun u => u.1 ≠ [])) st h
    | prefill settings now missingMode => exact TMInv_prefill settings now missingMode st h
    | run settings ui scope post oracle now =>
      exact TMInv_translateScope settings ui scope post oracle now st h
    | imp now entries => exact TMInv_importNorm now entries st.tm h

theorem C9_tm_key_invariant_witness :
    TMInv ([] : List TMEntry) ∧
    TMInv (([TMOp.update ⟨"VI".data, true, true, 20⟩ 5 ("d1".data) ("xin".data),
        TMOp.imp 6 [⟨" EN ".data, "hey".data, "hey".data, "yo".data, 0, 0, 0⟩]].foldl
      applyOp ⟨[sampleDialog], []⟩).tm) :=
  ⟨by decide,
   C9_tm_key_invariant
     [TMOp.update ⟨"VI".data, true, true, 20⟩ 5 ("d1".data) ("xin".data),
      TMOp.imp 6 [⟨" EN ".data, "hey".data, "hey".data, "yo".data, 0, 0, 0⟩]]
     ⟨[sampleDialog], []⟩ (by decide)⟩

/-- C9 (counterexample): `bulkUpdateTranslations` with target language
`VI` persists an entry whose `targetLang` field is the raw, uppercased
value — the claimed "fully lowercased `targetLang`" invariant fails
(while the entry's key is still the canonical lowercased one). -/
theorem C9_tm_key_invariant_cex :
    ((bulkUpdateTranslations ⟨"VI".data, true, true, 20⟩ 5 ⟨[sampleDialog], []⟩
        [("d1".data, "xin".data)]).1.tm.map
      (fun e => (e.key, e.targetLang, jsLower (jsTrim e.targetLang))))
      = [("vi::hello".data, "VI".data, "vi".data)] := by
  decide

/-! ### Claim C4 — per-batch atomicity and resumability -/

theorem dlgGet_id (ds : List DialogItem) (i : Str) (x : DialogItem) (h : dlgGet ds i = some x) :
    x.id = i := by
  have hp := List.find?_some h
  exact eq_of_beq hp

theorem dlgPut_mem_other (ds : List DialogItem) (x r : DialogItem) (hr : r ∈ ds)
    (hne : x.id ≠ r.id) : r ∈ dlgPut ds x := by
  rw [dlgPut]
  by_cases hf : (ds.find? (fun d => d.id == x.id)).isSome
  · rw [if_pos hf]
    have hb : (r.id == x.id) = false := beq_eq_false_iff_ne.mpr (fun hh => hne hh.symm)
    have hfix : (fun d => if d.id == x.id then x else d) r = r := by simp [hb]
    exact hfix ▸ List.mem_map_of_mem _ hr
  · rw [if_neg hf]
    exact List.mem_append_left _ hr

theorem commitGo_preserves (settings : StSettings) (now : Nat) :
    ∀ (ps : List (DialogItem × Str)) (st : AppState) (r : DialogItem),
      r ∈ st.dialogs → (∀ q ∈ ps, (q : DialogItem × Str).1.id ≠ r.id) →
      r ∈ (commitGo settings now ps st).dialogs := by
  intro ps
  induction ps with
  | nil => intro st r hr _; exact hr
  | cons p rest ih =>
    intro st r hr hq
    rcases p with ⟨d, next⟩
    rw [commitGo]
    cases hd : dlgGet st.dialogs d.id with
    | none => exact ih st r hr (fun q hqq => hq q (List.mem_cons_of_mem _ hqq))
    | some row0 =>
      dsimp only
      apply ih
      · dsimp only
        apply dlgPut_mem_other _ _ _ hr
        have hid : row0.id = d.id := dlgGet_id _ _ _ hd
        show row0.id ≠ r.id
        rw [hid]
        exact hq (d, next) (List.mem_cons_self _ _)
      · exact fun q hqq => hq q (List.mem_cons_of_mem _ hqq)

theorem runLoop_fail (settings : StSettings) (post : Str → List (Str × Str) → Str)
    (oracle : Nat → List DialogItem → Except Str (List Str)) (now : Nat) :
    ∀ (pre : List (List DialogItem)) (b : List DialogItem) (rest : List (List DialogItem))
      (k : Nat) (st : AppState) (m : Str),
      (∀ i (hi : i < pre.length), ∃ ts, oracle (k + i) (pre.get ⟨i, hi⟩) = Except.ok ts) →
      oracle (k + pre.length) b = Except.error m →
      runLoop settings post oracle now (pre ++ b :: rest) k st
        = (commitsOf settings post oracle now pre k st,
           RunOutcome.failedAt (k + pre.length) m) := by
  intro pre
  induction pre with
  | nil =>
    intro b rest k st m _ hb
    have hb2 : oracle k b = Except.error m := hb
    rw [List.nil_append, runLoop, hb2]
    rfl
  | cons p pre2 ih =>
    intro b rest k st m hpre hb
    obtain ⟨ts, h0⟩ := hpre 0 (by simp)
    have h02 : oracle k p = Except.ok ts := h0
    rw [List.cons_append, runLoop, h02]
    dsimp only
    rw [commitsOf, h02]
    dsimp only
    have hpre2 : ∀ i (hi : i < pre2.length),
        ∃ ts2, oracle (k + 1 + i) (pre2.get ⟨i, hi⟩) = Except.ok ts2 := by
      intro i hi
      obtain ⟨ts2, h2⟩ := hpre (i + 1) (by simpa using Nat.succ_lt_succ hi)
      refine ⟨ts2, ?_⟩
      have hk : k + (i + 1) = k + 1 + i := by omega
      rw [← hk]
      exact h2
    have hb2 : oracle (k + 1 + pre2.length) b = Except.error m := by
      have hk : k + (p :: pre2).length = k + 1 + pre2.length := by
        rw [List.length_cons]; omega
      rw [← hk]
      exact hb
    rw [ih b rest (k + 1) _ m hpre2 hb2]
    have hk : k + 1 + pre2.length = k + (p :: pre2).length := by
      rw [List.length_cons]; omega
    rw [hk]

/-- C4: per-batch atomicity and resumability of the `translateScope`
provider loop.  First conjunct: when the provider succeeds on every
batch before index `k + pre.length` and throws on that batch, the run
ends reporting exactly that batch index and message, and the final state
is precisely the commits of the earlier batches — the failing batch (and
all later ones) contributes nothing.  Second conjunct: committing a
batch leaves every dialog row whose id is not in the batch untouched, so
prior batches' persisted translations survive later commits. -/
theorem C4_batch_atomicity :
    (∀ (settings : StSettings) (post : Str → List (Str × Str) → Str)
       (oracle : Nat → List DialogItem → Except Str (List Str)) (now : Nat)
       (pre : List (List DialogItem)) (b : List DialogItem) (rest : List (List DialogItem))
       (k : Nat) (st : AppState) (m : Str),
       (∀ i (hi : i < pre.length), ∃ ts, oracle (k + i) (pre.get ⟨i, hi⟩) = Except.ok ts) →
       oracle (k + pre.length) b = Except.error m →
       runLoop settings post oracle now (pre ++ b :: rest) k st
         = (commitsOf settings post oracle now pre k st,
            RunOutcome.failedAt (k + pre.length) m)) ∧
    (∀ (settings : StSettings) (now : Nat) (post : Str → List (Str × Str) → Str)
       (batch : List DialogItem) (ts : List Str) (st : AppState) (r : DialogItem),
       r ∈ st.dialogs → (∀ d ∈ batch, (d : DialogItem).id ≠ r.id) →
       r ∈ (commitBatch settings now post batch ts st).dialogs) := by
  constructor
  · intro settings post oracle now
    exact runLoop_fail settings post oracle now
  · intro settings now post batch ts st r hr hb
    show r ∈ (commitGo settings now
      (batch.zip (postprocessTranslatedLines post batch ts)) st).dialogs
    apply commitGo_preserves settings now _ st r hr
    intro q hq
    rcases q with ⟨a, b2⟩
    exact hb a (List.of_mem_zip hq).1

/-- A second dialog row, in a different batch than `sampleDialog`. -/
def dlgB : DialogItem := ⟨"b2".data, 1, "qb".data, "qb".data, [], "qb".data, none⟩

theorem C4_batch_atomicity_witness :
    ((fun k (_ : List DialogItem) => if k = 0 then Except.ok [("t1".data)]
        else (Except.error ("boom".data) : Except Str (List Str))) 1 [dlgB]
      = Except.error ("boom".data)) ∧
    runLoop ⟨"vi".data, true, true, 20⟩ (fun s _ => s)
        (fun k _ => if k = 0 then Except.ok [("t1".data)]
          else (Except.error ("boom".data) : Except Str (List Str))) 7
        [[sampleDialog], [dlgB]] 0 ⟨[sampleDialog, dlgB], []⟩
      = (commitsOf ⟨"vi".data, true, true, 20⟩ (fun s _ => s)
          (fun k _ => if k = 0 then Except.ok [("t1".data)]
            else (Except.error ("boom".data) : Except Str (List Str))) 7
          [[sampleDialog]] 0 ⟨[sampleDialog, dlgB], []⟩,
         RunOutcome.failedAt 1 ("boom".data)) ∧
    dlgB ∈ (commitBatch ⟨"vi".data, true, true, 20⟩ 7 (fun s _ => s) [sampleDialog]
        [("t1".data)] ⟨[sampleDialog, dlgB], []⟩).dialogs := by
  refine ⟨by decide, ?_, ?_⟩
  · refine C4_batch_atomicity.1 ⟨"vi".data, true, true, 20⟩ (fun s _ => s)
      (fun k _ => if k = 0 then Except.ok [("t1".data)]
        else (Except.error ("boom".data) : Except Str (List Str))) 7
      [[sampleDialog]] [dlgB] [] 0 ⟨[sampleDialog, dlgB], []⟩ ("boom".data) ?_ ?_
    · intro i hi
      have hi1 : i < 1 := by simpa using hi
      have h0 : i = 0 := by omega
      subst h0
      exact ⟨[("t1".data)], rfl⟩
    · rfl
  · exact C4_batch_atomicity.2 ⟨"vi".data, true, true, 20⟩ 7 (fun s _ => s) [sampleDialog]
      [("t1".data)] ⟨[sampleDialog, dlgB], []⟩ dlgB (by decide) (by decide)

/-! ### Claim C6 — TM prefill -/

theorem dlgPut_present (ds : List DialogItem) (x : DialogItem)
    (hx : ∃ d ∈ ds, (d : DialogItem).id = x.id) :
    dlgPut ds x = ds.map (fun d => if d.id == x.id then x else d) := by
  have hs : (ds.find? (fun d => d.id == x.id)).isSome := by
    rw [List.find?_isSome]
    obtain ⟨d, hd, hid⟩ := hx
    exact ⟨d, hd, by simp [hid]⟩
  rw [dlgPut, if_pos hs]

theorem foldPut_map :
    ∀ (us ds : List DialogItem),
      (∀ u ∈ us, ∃ d ∈ ds, (d : DialogItem).id = (u : DialogItem).id) →
      (ds.map (fun d => d.id)).Nodup →
      (us.map (fun d => d.id)).Nodup →
      us.foldl dlgPut ds = ds.map (fun d =>
        match us.find? (fun u => u.id == d.id) with
        | some u => u
        | none => d) := by
  intro us
  induction us with
  | nil =>
    intro ds _ _ _
    simp [List.foldl_nil]
  | cons u us2 ih =>
    intro ds hpre hndds hndus
    rw [List.foldl_cons]
    have hx : ∃ d ∈ ds, (d : DialogItem).id = u.id := hpre u (List.mem_cons_self _ _)
    rw [dlgPut_present ds u hx]
    have hpre2 : ∀ v ∈ us2, ∃ d2 ∈ ds.map (fun d => if d.id == u.id then u else d),
        (d2 : DialogItem).id = (v : DialogItem).id := by
      intro v hv
      obtain ⟨d, hd, hid⟩ := hpre v (List.mem_cons_of_mem _ hv)
      refine ⟨(fun d => if d.id == u.id then u else d) d, List.mem_map_of_mem _ hd, ?_⟩
      by_cases hc : (d.id == u.id) = true
      · simp only [if_pos hc]
        rw [← eq_of_beq hc]
        exact hid
      · simp only [if_neg hc]
        exact hid
    have hid_pres : (ds.map (fun d => if d.id == u.id then u else d)).map (fun d => d.id)
        = ds.map (fun d => d.id) := by
      rw [List.map_map]
      apply List.map_congr_left
      intro d _
      simp only [Function.comp]
      by_cases hc : (d.id == u.id) = true
      · simp only [if_pos hc]
        exact (eq_of_beq hc).symm
      · simp only [if_neg hc]
    have hndds2 : ((ds.map (fun d => if d.id == u.id then u else d)).map
        (fun d => d.id)).Nodup := by
      rw [hid_pres]; exact hndds
    have hndus2 : (us2.map (fun d => d.id)).Nodup := (List.nodup_cons.mp hndus).2
    rw [ih _ hpre2 hndds2 hndus2, List.map_map]
    apply List.map_congr_left
    intro d _
    simp only [Function.comp]
    by_cases hc : (d.id == u.id) = true
    · rw [if_pos hc]
      have hnone : us2.find? (fun v => v.id == u.id) = none := by
        rw [List.find?_eq_none]
        intro v hv hbv
        have hmm := List.mem_map_of_mem (fun d => d.id) hv
        dsimp only at hmm
        rw [eq_of_beq hbv] at hmm
        exact (List.nodup_cons.mp hndus).1 hmm
      rw [hnone]
      have hfc : List.find? (fun v : DialogItem => v.id == d.id) (u :: us2) = some u := by
        rw [List.find?_cons_of_pos]
        exact beq_iff_eq.mpr (eq_of_beq hc).symm
      rw [hfc]
    · rw [if_neg hc]
      have hfc : List.find? (fun v : DialogItem => v.id == d.id) (u :: us2)
          = List.find? (fun v : DialogItem => v.id == d.id) us2 := by
        rw [List.find?_cons_of_neg]
        intro hb
        exact hc (beq_iff_eq.mpr (eq_of_beq hb).symm)
      rw [hfc]

theorem find?_id_of_mem : ∀ (ds : List DialogItem) (d0 : DialogItem), d0 ∈ ds →
    (ds.map (fun d => d.id)).Nodup → ds.find? (fun y => y.id == d0.id) = some d0 := by
  intro ds
  induction ds with
  | nil => intro d0 h _; cases h
  | cons x rest ih =>
    intro d0 hmem hnd
    rcases List.mem_cons.mp hmem with rfl | hmem2
    · exact List.find?_cons_of_pos _ (by simp)
    · have hfc : List.find? (fun y : DialogItem => y.id == d0.id) (x :: rest)
          = List.find? (fun y : DialogItem => y.id == d0.id) rest := by
        rw [List.find?_cons_of_neg]
        intro hb
        have hmm := List.mem_map_of_mem (fun d => d.id) hmem2
        dsimp only at hmm
        rw [← eq_of_beq hb] at hmm
        exact (List.nodup_cons.mp hnd).1 hmm
      rw [hfc]
      exact ih d0 hmem2 (List.nodup_cons.mp hnd).2

theorem mem_id_unique (ds : List DialogItem) (d d0 : DialogItem) (hd : d ∈ ds)
    (hd0 : d0 ∈ ds) (hnd : (ds.map (fun x => x.id)).Nodup) (hid : d.id = d0.id) : d = d0 := by
  have h1 := find?_id_of_mem ds d0 hd0 hnd
  have h2 := find?_id_of_mem ds d hd hnd
  rw [show (fun y : DialogItem => y.id == d.id) = (fun y => y.id == d0.id) from
    funext (fun y => by rw [hid])] at h2
  have h3 := h1.symm.trans h2
  injection h3 with h4
  exact h4.symm

theorem applyCollect_mem (settings : StSettings) (mm : Bool) (tm : List TMEntry) :
    ∀ (ds : List DialogItem) (u : DialogItem), u ∈ applyCollect settings mm tm ds →
      ∃ d ∈ ds, (d : DialogItem).id = u.id := by
  intro ds
  induction ds with
  | nil => intro u h; simp [applyCollect] at h
  | cons d rest ih =>
    intro u h
    rw [applyCollect] at h
    cases hg : tmGet tm (tmKey settings.targetLang (dialogSourceKey d)) with
    | none =>
      rw [hg] at h
      obtain ⟨d2, hd2, hid⟩ := ih u h
      exact ⟨d2, List.mem_cons_of_mem _ hd2, hid⟩
    | some hh =>
      rw [hg] at h
      dsimp only at h
      by_cases h1 : hh.translatedText = []
      · rw [if_pos h1] at h
        obtain ⟨d2, hd2, hid⟩ := ih u h
        exact ⟨d2, List.mem_cons_of_mem _ hd2, hid⟩
      · rw [if_neg h1] at h
        by_cases h2 : mm = true ∧ hasTranslated d = true
        · rw [if_pos h2] at h
          obtain ⟨d2, hd2, hid⟩ := ih u h
          exact ⟨d2, List.mem_cons_of_mem _ hd2, hid⟩
        · rw [if_neg h2] at h
          by_cases h3 : d.translated = some hh.translatedText
          · rw [if_pos h3] at h
            obtain ⟨d2, hd2, hid⟩ := ih u h
            exact ⟨d2, List.mem_cons_of_mem _ hd2, hid⟩
          · rw [if_neg h3] at h
            rcases List.mem_cons.mp h with rfl | h4
            · exact ⟨d, List.mem_cons_self _ _, rfl⟩
            · obtain ⟨d2, hd2, hid⟩ := ih u h4
              exact ⟨d2, List.mem_cons_of_mem _ hd2, hid⟩

theorem applyCollect_ids (settings : StSettings) (mm : Bool) (tm : List TMEntry) :
    ∀ (ds : List DialogItem),
      ((applyCollect settings mm tm ds).map (fun d => d.id)).Sublist
        (ds.map (fun d => d.id)) := by
  intro ds
  induction ds with
  | nil => simp [applyCollect]
  | cons d rest ih =>
    rw [applyCollect]
    cases hg : tmGet tm (tmKey settings.targetLang (dialogSourceKey d)) with
    | none => exact List.Sublist.cons _ ih
    | some hh =>
      dsimp only
      by_cases h1 : hh.translatedText = []
      · rw [if_pos h1]; exact List.Sublist.cons _ ih
      · rw [if_neg h1]
        by_cases h2 : mm = true ∧ hasTranslated d = true
        · rw [if_pos h2]; exact List.Sublist.cons _ ih
        · rw [if_neg h2]
          by_cases h3 : d.translated = some hh.translatedText
          · rw [if_pos h3]; exact List.Sublist.cons _ ih
          · rw [if_neg h3]
            rw [List.map_cons]
            exact List.Sublist.cons₂ _ ih

theorem applyCollect_mem_of (settings : StSettings) (tm : List TMEntry) :
    ∀ (ds : List DialogItem) (d0 : DialogItem) (h : TMEntry),
      d0 ∈ ds → hasTranslated d0 = false →
      tmGet tm (tmKey settings.targetLang (dialogSourceKey d0)) = some h →
      jsTrim h.translatedText ≠ [] →
      { d0 with translated := some h.translatedText } ∈ applyCollect settings true tm ds := by
  intro ds
  induction ds with
  | nil => intro d0 h hmem _ _ _; cases hmem
  | cons d rest ih =>
    intro d0 h hmem hhas hget htrim
    rcases List.mem_cons.mp hmem with rfl | hmem2
    · rw [applyCollect, hget]
      dsimp only
      have h1 : ¬ h.translatedText = [] := fun he => htrim (by rw [he]; rfl)
      rw [if_neg h1]
      have h2 : ¬ (true = true ∧ hasTranslated d0 = true) := by
        intro hc
        rw [hhas] at hc
        exact Bool.false_ne_true hc.2
      rw [if_neg h2]
      have h3 : ¬ d0.translated = some h.translatedText := by
        intro hc
        have hht : hasTranslated d0 = true := by
          rw [hasTranslated, hc]
          exact decide_eq_true htrim
        rw [hhas] at hht
        exact Bool.false_ne_true hht
      rw [if_neg h3]
      exact List.mem_cons_self _ _
    · rw [applyCollect]
      cases hg : tmGet tm (tmKey settings.targetLang (dialogSourceKey d)) with
      | none => exact ih d0 h hmem2 hhas hget htrim
      | some hh =>
        dsimp only
        by_cases h1 : hh.translatedText = []
        · rw [if_pos h1]; exact ih d0 h hmem2 hhas hget htrim
        · rw [if_neg h1]
          by_cases h2 : true = true ∧ hasTranslated d = true
          · rw [if_pos h2]; exact ih d0 h hmem2 hhas hget htrim
          · rw [if_neg h2]
            by_cases h3 : d.translated = some hh.translatedText
            · rw [if_pos h3]; exact ih d0 h hmem2 hhas hget htrim
            · rw [if_neg h3]
              exact List.mem_cons_of_mem _ (ih d0 h hmem2 hhas hget htrim)

/-- C6: TM prefill, amended.  With TM enabled, the prefill pass of
`translateScope` runs `applyTMToCurrentFile` in `missing` mode.  For the
`missing` scope the claim holds: every candidate row (no nonblank
translation yet) whose TM key stores a translation with nonblank trim is
written that translation by the prefill, the written row no longer
passes the candidate predicate, and the recomputed candidate set —
exactly what the provider batches are built from — contains no row with
its id.  The original claim's "in any scope" is false: under scope
`all` the prefilled row still passes the predicate and is sent to the
provider (see the counterexample). -/
theorem C6_tm_prefill :
    ∀ (settings : StSettings) (ui : UIView) (now : Nat) (st : AppState)
      (d0 : DialogItem) (h : TMEntry),
      settings.tmEnabled = true →
      (st.dialogs.map (fun d => d.id)).Nodup →
      d0 ∈ st.dialogs →
      hasTranslated d0 = false →
      tmGet st.tm (tmKey settings.targetLang (dialogSourceKey d0)) = some h →
      jsTrim h.translatedText ≠ [] →
      dlgGet (applyTMToCurrentFile settings now true st).1.dialogs d0.id
          = some { d0 with translated := some h.translatedText } ∧
      candidateFilter Scope.missing ui { d0 with translated := some h.translatedText } = false ∧
      ∀ e ∈ scopeCandidates Scope.missing ui
          (applyTMToCurrentFile settings now true st).1.dialogs,
        (e : DialogItem).id ≠ d0.id := by
  intro settings ui now st d0 h hen hnd hmem hhas hget htrim
  have hdialogs : (applyTMToCurrentFile settings now true st).1.dialogs
      = (applyCollect settings true st.tm st.dialogs).foldl dlgPut st.dialogs := by
    rw [applyTMToCurrentFile, if_pos hen]
  have hu0 : { d0 with translated := some h.translatedText }
      ∈ applyCollect settings true st.tm st.dialogs :=
    applyCollect_mem_of settings st.tm st.dialogs d0 h hmem hhas hget htrim
  have hndus : ((applyCollect settings true st.tm st.dialogs).map (fun d => d.id)).Nodup :=
    hnd.sublist (applyCollect_ids settings true st.tm st.dialogs)
  have hpre : ∀ u ∈ applyCollect settings true st.tm st.dialogs,
      ∃ d ∈ st.dialogs, (d : DialogItem).id = (u : DialogItem).id :=
    fun u hu => applyCollect_mem settings true st.tm st.dialogs u hu
  have hfold := foldPut_map (applyCollect settings true st.tm st.dialogs) st.dialogs hpre hnd hndus
  have hfindus : (applyCollect settings true st.tm st.dialogs).find?
      (fun v => v.id == d0.id) = some { d0 with translated := some h.translatedText } :=
    find?_id_of_mem (applyCollect settings true st.tm st.dialogs)
      { d0 with translated := some h.translatedText } hu0 hndus
  have hfindds : st.dialogs.find? (fun y => y.id == d0.id) = some d0 :=
    find?_id_of_mem st.dialogs d0 hmem hnd
  have hF : ∀ d : DialogItem,
      ((fun d : DialogItem => match (applyCollect settings true st.tm st.dialogs).find?
          (fun u : DialogItem => u.id == d.id) with
        | some u => u
        | none => d) d).id = d.id := by
    intro d
    dsimp only
    cases hf : (applyCollect settings true st.tm st.dialogs).find?
        (fun u : DialogItem => u.id == d.id) with
    | none => rfl
    | some u =>
      dsimp only
      have hp := List.find?_some hf
      exact eq_of_beq hp
  have hbt : hasTranslated { d0 with translated := some h.translatedText } = true := by
    show (decide (jsTrim h.translatedText ≠ []) : Bool) = true
    exact decide_eq_true htrim
  have hb : candidateFilter Scope.missing ui { d0 with translated := some h.translatedText }
      = false := by
    rw [candidateFilter, if_pos ⟨rfl, hbt⟩]
  refine ⟨?_, hb, ?_⟩
  · rw [hdialogs, hfold, dlgGet, List.find?_map]
    have hcomp : ((fun d : DialogItem => d.id == d0.id) ∘ (fun d : DialogItem =>
        match (applyCollect settings true st.tm st.dialogs).find?
            (fun u : DialogItem => u.id == d.id) with
          | some u => u
          | none => d)) = (fun y : DialogItem => y.id == d0.id) := by
      funext d
      simp only [Function.comp]
      rw [hF d]
    rw [hcomp, hfindds]
    rw [Option.map_some']
    rw [hfindus]
  · intro e he heq
    rw [scopeCandidates, hdialogs, hfold] at he
    obtain ⟨he1, he2⟩ := List.mem_filter.mp he
    obtain ⟨d, hd, hFd⟩ := List.mem_map.mp he1
    have hdid : d.id = d0.id := by
      rw [← heq, ← hFd]
      exact (hF d).symm
    have hdd0 : d = d0 := mem_id_unique st.dialogs d d0 hd hmem hnd hdid
    rw [hdd0] at hFd
    have hEe : e = { d0 with translated := some h.translatedText } := by
      rw [← hFd]
      rw [hfindus]
    rw [hEe, hb] at he2
    exact Bool.false_ne_true he2

/-- A TM entry matching `sampleDialog`'s source key under target `vi`. -/
def tmEntryHello : TMEntry :=
  ⟨"vi::hello".data, "vi".data, "hello".data, "hello".data, "TMX".data, 1, 1, 0⟩

theorem C6_tm_prefill_witness :
    tmGet [tmEntryHello] (tmKey ("vi".data) (dialogSourceKey sampleDialog))
        = some tmEntryHello ∧
    hasTranslated sampleDialog = false ∧
    (dlgGet (applyTMToCurrentFile ⟨"vi".data, true, true, 20⟩ 3 true
          ⟨[sampleDialog], [tmEntryHello]⟩).1.dialogs sampleDialog.id
        = some { sampleDialog with translated := some tmEntryHello.translatedText } ∧
      candidateFilter Scope.missing ⟨[], [], false⟩
        { sampleDialog with translated := some tmEntryHello.translatedText } = false ∧
      ∀ e ∈ scopeCandidates Scope.missing ⟨[], [], false⟩
          (applyTMToCurrentFile ⟨"vi".data, true, true, 20⟩ 3 true
            ⟨[sampleDialog], [tmEntryHello]⟩).1.dialogs,
        (e : DialogItem).id ≠ sampleDialog.id) :=
  ⟨by decide, by decide,
   C6_tm_prefill ⟨"vi".data, true, true, 20⟩ ⟨[], [], false⟩ 3
     ⟨[sampleDialog], [tmEntryHello]⟩ sampleDialog tmEntryHello rfl (by decide) (by decide)
     (by decide) (by decide) (by decide)⟩

/-- C6 (counterexample): under scope `all` the prefilled row is *not*
excluded from the provider batches.  The prefill alone writes the TM
translation `TMX`; the full `translateScope` run over the same state
ends with the provider's answer `MT` on that row — the TM-filled item
was sent to the provider and overwritten. -/
theorem C6_tm_prefill_cex :
    ((translateScope ⟨"vi".data, true, true, 20⟩ ⟨[], [], false⟩ Scope.all (fun s _ => s)
        (fun _ _ => Except.ok [("MT".data)]) 9 ⟨[sampleDialog], [tmEntryHello]⟩).1.dialogs.map
      (fun d => d.translated) = [some ("MT".data)]) ∧
    ((applyTMToCurrentFile ⟨"vi".data, true, true, 20⟩ 9 true
        ⟨[sampleDialog], [tmEntryHello]⟩).1.dialogs.map (fun d => d.translated)
      = [some ("TMX".data)]) := by
  decide

end VNT
